import Mathlib

/-!
Verification of the segmented-address range model of the ipaddress-go library.

The data model and the operations below are a shallow embedding of the Go
source (section.go, types.go, the address files and the library code embedded
in the test-directory files).  Machine integers are modelled as `Nat` (all the
segment arithmetic in the source operates on non-negative values below
`2 ^ bitsPerSegment`); Go `int` inputs that may be negative are modelled as
`Int`.  Go `nil` results are modelled with `Option`.  Bitwise operations on
values below a power of two are written with `/`, `%`, `*` and `+` on the
corresponding powers of two (for `x < 2 ^ b`, `x & mask` with
`mask = 2 ^ h - 1` is `x % 2 ^ h`, and `x & ~mask` keeps `x / 2 ^ h`).
Library code that is not part of the given sources (segment-level operations,
index helpers, iterators, increment helpers, range constructors) is modelled
from the specification; each such definition carries a doc comment starting
with `Modelled from the spec:`.
-/

namespace IPAddrGo

/-- One address segment (division): an inclusive range `[lower, upper]` of
values.  The per-segment prefix is not stored: the operations verified here
compute segment-level prefixes from the section-level prefix. -/
structure Seg where
  lower : Nat
  upper : Nat
deriving DecidableEq, Repr

/-- The address kind stored in a section (`addrType` in the source).  `zero`
is the nil type of the zero section. -/
inductive AddrType where
  | ipv4
  | ipv6
  | mac
  | zero
deriving DecidableEq, Repr

/-- `GetBitsPerSegment` (section.go:150): 8 for IPv4, 16 for IPv6, 8 for MAC;
for the nil type with no divisions the source returns 0. -/
def AddrType.bitsPerSegment : AddrType → Nat
  | .ipv4 => 8
  | .ipv6 => 16
  | .mac => 8
  | .zero => 0

/-- An address section: the ordered segments, the optional section-level
prefix length (`PrefixLen`, nil = absent), and the address kind. -/
structure Sect where
  segs : List Seg
  prefixLength : Option Nat
  addrType : AddrType
deriving DecidableEq, Repr

/-- Well-formedness of one segment: `lower ≤ upper` and both below
`2 ^ bits` (invariants of the Segment entity, spec section 3). -/
def Seg.wf (bits : Nat) (g : Seg) : Prop :=
  g.lower ≤ g.upper ∧ g.upper < 2 ^ bits

/-- Well-formedness of a section: every segment is well-formed for the
section's bits-per-segment. -/
def Sect.wf (s : Sect) : Prop :=
  ∀ g ∈ s.segs, g.wf s.addrType.bitsPerSegment

instance (bits : Nat) (g : Seg) : Decidable (g.wf bits) := by
  unfold Seg.wf; infer_instance

instance (s : Sect) : Decidable (s.wf) := by
  unfold Sect.wf; infer_instance

/-- `GetSegmentCount` (section.go:190). -/
def Sect.GetSegmentCount (s : Sect) : Nat := s.segs.length

/-- `GetBitCount` (section.go:194): bits per segment times segment count. -/
def Sect.GetBitCount (s : Sect) : Nat :=
  s.addrType.bitsPerSegment * s.segs.length

/-- `Seg.IsMultiple`: Modelled from the spec: `is_multiple()` is
`lower != upper` (spec 4.1). -/
def Seg.isMultiple (g : Seg) : Bool := g.lower != g.upper

/-- `Seg.IsFullRange`: Modelled from the spec: `is_full_range()` is
`lower == 0 ∧ upper == 2^bit_count − 1` (spec 4.1). -/
def Seg.isFullRange (bits : Nat) (g : Seg) : Bool :=
  g.lower == 0 && g.upper == 2 ^ bits - 1

/-- `IsMultiple` of a section, derived as in `initMultiple` (section.go:98):
true when some segment is multiple. -/
def Sect.isMultiple (s : Sect) : Bool := s.segs.any Seg.isMultiple

/-- `checkBitCount` (types.go:394): clamp a prefix length into `[0, max]`. -/
def checkBitCount (prefixLen : Int) (max : Nat) : Nat :=
  if prefixLen > (max : Int) then max
  else if prefixLen < 0 then 0
  else prefixLen.toNat

/-- Modelled from the spec: `getDivisionPrefixLength` (missing from src; used
by the index helpers).  It realizes the aligned-prefix invariant of spec
section 3: a segment whose bits are all inside the prefix gets `nil`, a
segment past the prefix gets `Some 0`, and the segment holding the prefix
boundary gets the number of its prefixed bits. -/
def getDivisionPrefixLength (bits : Nat) (prefixedBits : Int) : Option Nat :=
  if prefixedBits ≤ 0 then some 0
  else if (bits : Int) ≤ prefixedBits then none
  else some prefixedBits.toNat

/-- Modelled from the spec: `getPrefixedSegmentPrefixLength` (missing from
src): the segment-level prefix of segment `i` under section prefix `p` is the
part of `p` that exceeds the `i * bits` bits before the segment. -/
def getPrefixedSegmentPrefixLength (bits p i : Nat) : Option Nat :=
  getDivisionPrefixLength bits ((p : Int) - (i * bits : Nat))

/-- Modelled from the spec: `getHostSegmentIndex` (missing from src): the
index of the segment containing the first host bit, `p / bits`. -/
def getHostSegmentIndex (p bits : Nat) : Nat := p / bits

/-- Modelled from the spec: `getNetworkSegmentIndex` (missing from src): the
index of the last segment containing a network bit, `(p − 1) / bits`; only
used by the source for `p > 0`. -/
def getNetworkSegmentIndex (p bits : Nat) : Nat := (p - 1) / bits

/-- Modelled from the spec: segment-level `contains_prefix_block(p)`
(spec 4.1): with `mask = (1 << (bit_count − p)) − 1`, require
`(lower & ~mask) == (upper & ~mask)`, `(lower & mask) == 0` and
`(upper & mask) == mask`; the edge case `p == bit_count` reduces to
"single value".  Written with `/` and `%` by `2 ^ (bits − p)`: the first
conjunct is equality of the quotients, the last two fix the remainders
(for `p ≥ bits` the power is `2 ^ 0 = 1`, which reduces to
`lower == upper`, exactly the stated edge case). -/
def Seg.containsPrefixBlock (bits p : Nat) (g : Seg) : Bool :=
  let host := 2 ^ (bits - p)
  (g.lower / host == g.upper / host) &&
  (g.lower % host == 0) && (g.upper % host == host - 1)

/-- Modelled from the spec: segment-level `contains_single_prefix_block(p)`
(spec 4.1): "stronger — bits above `p` form a single value".  The formula of
`contains_prefix_block` already requires the bits above `p` of `lower` and
`upper` to agree, so the two coincide segment-wise. -/
def Seg.containsSinglePrefixBlock (bits p : Nat) (g : Seg) : Bool :=
  g.containsPrefixBlock bits p

/-- The shared loop of `ContainsPrefixBlock` (section.go:514-533) and of the
fast path of `toPrefixBlockLen` (section.go:395-412), for an already clamped
prefix `pc`: the segment at the host segment index must contain the prefix
block at its segment-level prefix `pc - i * bits` (this is the value of
`*getPrefixedSegmentPrefixLength bits pc i` there), and every later segment
must be full range. -/
def prefixBlockCheck (bits : Nat) (segs : List Seg) (pc : Nat) : Bool :=
  let i := getHostSegmentIndex pc bits
  if i < segs.length then
    (segs.getD i ⟨0, 0⟩).containsPrefixBlock bits (pc - i * bits) &&
    ((segs.drop (i + 1)).all (Seg.isFullRange bits))
  else true

/-- `ContainsPrefixBlock` (section.go:514-533): clamp the prefix with
`checkSubnet` (types.go:386), then run the check loop. -/
def Sect.ContainsPrefixBlock (s : Sect) (p : Int) : Bool :=
  prefixBlockCheck s.addrType.bitsPerSegment s.segs (checkBitCount p s.GetBitCount)

/-- Modelled from the spec: `toPrefixedNetworkDivision` (missing from src):
under segment prefix `k` the host bits of `lower` are zeroed and the host
bits of `upper` are set (spec 4.2, `to_prefix_block`); a `nil` segment prefix
leaves the segment unchanged. -/
def toPrefixedNetworkDivision (bits : Nat) (segPref : Option Nat) (g : Seg) : Seg :=
  match segPref with
  | none => g
  | some k =>
    let host := 2 ^ (bits - k)
    ⟨g.lower / host * host, g.upper / host * host + (host - 1)⟩

/-- `toPrefixBlockLen` (section.go:377-428).  The prefix is clamped into
`[0, bitCount]`; an empty section is returned unchanged; when the section
already carries exactly this prefix and the check loop succeeds the section
itself is returned; otherwise the segments from the network segment index on
are replaced by their prefixed network divisions and the clamped prefix is
assigned.  (The returned `isMultiple` flag of the source is derived here.) -/
def Sect.toPrefixBlockLen (s : Sect) (p : Int) : Sect :=
  let bits := s.addrType.bitsPerSegment
  let pc := checkBitCount p s.GetBitCount
  if s.segs.length = 0 then s
  else
    if (s.prefixLength == some pc) && prefixBlockCheck bits s.segs pc then s
    else
      let prefixedSegmentIndex := if 0 < pc then getNetworkSegmentIndex pc bits else 0
      let newSegs := (List.range s.segs.length).map fun i =>
        if i < prefixedSegmentIndex then s.segs.getD i ⟨0, 0⟩
        else toPrefixedNetworkDivision bits (getPrefixedSegmentPrefixLength bits pc i)
          (s.segs.getD i ⟨0, 0⟩)
      { segs := newSegs, prefixLength := some pc, addrType := s.addrType }

/-- The zero section (section.go:9): no divisions, no prefix, nil type. -/
def zeroSection : Sect := ⟨[], none, .zero⟩

/-- `getSubSection` (section.go:224-254).  `index` is clamped below at 0.
The source then runs `if endIndex < thisSegmentCount { endIndex =
thisSegmentCount }`, which raises any `endIndex` below the segment count up
to the segment count (this clamp is kept exactly as written).  A
non-positive span yields the section itself (when it has no segments) or the
zero section; the full span yields the section itself; otherwise the
segments of `[index, endIndex)` available in the source are copied
(`visitSubSegments` stops at the source length; for `endIndex` beyond the
segment count the source would leave nil segments in the extra slots, which
no claim exercises) and the prefix is adjusted with
`getPrefixedSegmentPrefixLength` when `index ≠ 0`. -/
def Sect.getSubSection (s : Sect) (index endIndex : Int) : Sect :=
  let index := if index < 0 then 0 else index
  let idx := index.toNat
  let thisSegmentCount := s.segs.length
  let endIdx := if endIndex < (thisSegmentCount : Int) then thisSegmentCount else endIndex.toNat
  if endIdx ≤ idx then
    (if thisSegmentCount = 0 then s else zeroSection)
  else if idx = 0 ∧ endIdx = thisSegmentCount then s
  else
    let newSegs := (s.segs.drop idx).take (min endIdx thisSegmentCount - idx)
    let newPrefLen := match s.prefixLength with
      | none => none
      | some pl =>
        if idx ≠ 0 then getPrefixedSegmentPrefixLength s.addrType.bitsPerSegment pl idx
        else some pl
    { segs := newSegs, prefixLength := newPrefLen, addrType := s.addrType }

/-! ### PrefixBitCount (types.go) -/

/-- `(*PrefixBitCount).Len` (types.go:103): returns 0 for the nil receiver,
otherwise the stored bit count (`bCount`, modelled as `Nat`). -/
def prefixBitCountLen : Option Nat → Nat
  | none => 0
  | some b => b

/-- `(*PrefixBitCount).Compare` (types.go:143-153): nil compares greater
than any present value; two present values compare by the difference of
their bit counts. -/
def prefixBitCountCompare : Option Nat → Option Nat → Int
  | none, none => 0
  | none, some _ => 1
  | some _, none => -1
  | some a, some b => (a : Int) - (b : Int)

/-! ### Addresses (part_001, part_002, ipv6addr.go) -/

/-- The Go `addressInternal` (part_002:26): a section pointer (Go nil
modelled as `none`) and a zone string (empty = absent). -/
structure GoAddress where
  sect : Option Sect
  zone : String
deriving DecidableEq, Repr

/-- The zero `Address` built by `init()` (part_002:88-95): a present but
empty section. -/
def zeroAddr : GoAddress := ⟨some zeroSection, ""⟩

/-- `Address.init` (part_002:101): substitute the zero address when the
section is nil. -/
def addressInit (a : GoAddress) : GoAddress := if a.sect = none then zeroAddr else a

/-- The section of an address, with the nil section read as the empty
section (what every section access after `init` observes). -/
def GoAddress.sectD (a : GoAddress) : Sect := a.sect.getD zeroSection

/-- `matchesIPv4AddressType` (ipaddrrangetest.go:3825): the address type is
IPv4 (segment counts are enforced at construction). -/
def Sect.matchesIPv4Address (s : Sect) : Bool := s.addrType == .ipv4

/-- `matchesIPv6AddressType` (ipaddrrangetest.go:3821). -/
def Sect.matchesIPv6Address (s : Sect) : Bool := s.addrType == .ipv6

/-- `matchesMACAddressType` (ipaddrrangetest.go:3833). -/
def Sect.matchesMACAddress (s : Sect) : Bool := s.addrType == .mac

/-- `hasNoDivisions`. -/
def Sect.hasNoDivisions (s : Sect) : Bool := s.segs.isEmpty

/-- `Address.ToIPAddress` (part_002:128-139) on a possibly-nil receiver. -/
def addressToIPAddress : Option GoAddress → Option GoAddress
  | none => none
  | some addr0 =>
    let addr := addressInit addr0
    if addr.sectD.hasNoDivisions || addr.sectD.matchesIPv4Address || addr.sectD.matchesIPv6Address
    then some addr
    else none

/-- `Address.ToIPv6Address` (part_002:141-151). -/
def addressToIPv6Address : Option GoAddress → Option GoAddress
  | none => none
  | some addr0 =>
    let addr := addressInit addr0
    if addr.sectD.matchesIPv6Address then some addr else none

/-- `Address.ToIPv4Address` (part_002:153-163). -/
def addressToIPv4Address : Option GoAddress → Option GoAddress
  | none => none
  | some addr0 =>
    let addr := addressInit addr0
    if addr.sectD.matchesIPv4Address then some addr else none

/-- `Address.ToMACAddress` (part_002:165-175). -/
def addressToMACAddress : Option GoAddress → Option GoAddress
  | none => none
  | some addr0 =>
    let addr := addressInit addr0
    if addr.sectD.matchesMACAddress then some addr else none

/-- The zero IPv4 address `0.0.0.0` (part_001:75-82). -/
def zeroIPv4 : GoAddress := ⟨some ⟨[⟨0, 0⟩, ⟨0, 0⟩, ⟨0, 0⟩, ⟨0, 0⟩], none, .ipv4⟩, ""⟩

/-- `IPv4Address.init` (part_001:120-125): substitute `0.0.0.0` when the
section is nil. -/
def ipv4AddressInit (a : GoAddress) : GoAddress := if a.sect = none then zeroIPv4 else a

/-- The zero IPv6 address `::` (ipv6addr.go:109-116). -/
def zeroIPv6 : GoAddress :=
  ⟨some ⟨[⟨0, 0⟩, ⟨0, 0⟩, ⟨0, 0⟩, ⟨0, 0⟩, ⟨0, 0⟩, ⟨0, 0⟩, ⟨0, 0⟩, ⟨0, 0⟩], none, .ipv6⟩, ""⟩

/-- `IPv6Address.init` (ipv6addr.go:142-147). -/
def ipv6AddressInit (a : GoAddress) : GoAddress := if a.sect = none then zeroIPv6 else a

/-- `getLowestOrHighestSection` with `lowest = true`
(section.go:320-367): a non-multiple section is returned itself; otherwise
each segment collapses to its lower value, the section prefix is kept. -/
def Sect.getLowerSect (s : Sect) : Sect :=
  if ¬ s.isMultiple then s
  else { segs := s.segs.map fun g => ⟨g.lower, g.lower⟩
         prefixLength := s.prefixLength
         addrType := s.addrType }

/-- `getLowestOrHighestSection` with `lowest = false` (section.go:320-367). -/
def Sect.getUpperSect (s : Sect) : Sect :=
  if ¬ s.isMultiple then s
  else { segs := s.segs.map fun g => ⟨g.upper, g.upper⟩
         prefixLength := s.prefixLength
         addrType := s.addrType }

/-- `withoutPrefixLength` (section.go:469-474). -/
def Sect.withoutPrefixLength (s : Sect) : Sect :=
  if s.prefixLength = none then s
  else { segs := s.segs, prefixLength := none, addrType := s.addrType }

/-- `addressInternal.getLower` (part_002:57-64): lower section, zone kept. -/
def addressGetLower (a : GoAddress) : GoAddress :=
  ⟨some a.sectD.getLowerSect, a.zone⟩

/-- `addressInternal.getUpper` (part_002:66-73). -/
def addressGetUpper (a : GoAddress) : GoAddress :=
  ⟨some a.sectD.getUpperSect, a.zone⟩

/-- `IPv4Address.GetLower` (part_001:189-191). -/
def ipv4GetLower (a : GoAddress) : GoAddress := addressGetLower (ipv4AddressInit a)

/-- `IPv4Address.GetUpper` (part_001:193-195). -/
def ipv4GetUpper (a : GoAddress) : GoAddress := addressGetUpper (ipv4AddressInit a)

/-- `IPv6Address.WithoutPrefixLength` (ipv6addr.go:280-282): the address
with the section's prefix removed, zone kept. -/
def ipv6WithoutPrefixLength (a : GoAddress) : GoAddress :=
  ⟨some (ipv6AddressInit a).sectD.withoutPrefixLength, (ipv6AddressInit a).zone⟩

/-- `IPv6Address.WithoutZone` (ipv6addr.go:365-370). -/
def ipv6WithoutZone (a : GoAddress) : GoAddress :=
  if a.zone ≠ "" then ⟨a.sect, ""⟩ else a

/-- A sequential range: a pair of addresses. -/
structure SeqRange where
  lower : GoAddress
  upper : GoAddress
deriving DecidableEq, Repr

/-- Modelled from the spec: `newSeqRangeUnchecked` (missing from src): the
endpoints are stored as given (the IPv6 caller passes them already ordered
and already stripped of prefix and zone); the `isMultiple` hint argument of
the source is cache-only and dropped. -/
def newSeqRangeUnchecked (lo up : GoAddress) : SeqRange := ⟨lo, up⟩

/-- The full integer value of a list of segments, taking `lower` of each
(`getLongValue` with `lower = true`, part_000:245-267, written here as the
equivalent big-endian fold). -/
def segsLowerVal (bits : Nat) : List Seg → Nat
  | [] => 0
  | g :: rest => g.lower * 2 ^ (bits * rest.length) + segsLowerVal bits rest

/-- The full integer value taking `upper` of each segment. -/
def segsUpperVal (bits : Nat) : List Seg → Nat
  | [] => 0
  | g :: rest => g.upper * 2 ^ (bits * rest.length) + segsUpperVal bits rest

/-- Modelled from the spec: `NewIPv4SeqRange` (missing from src): a range is
"constructed from two addresses; swaps them if out of order" (spec 4.5),
its endpoints are single-valued and unprefixed and ranges strip the zone
(spec 3): order the two addresses by integer value, take the lower bound of
the smaller and the upper bound of the larger, and strip prefix and zone. -/
def NewIPv4SeqRange (one other : GoAddress) : SeqRange :=
  let ordered :=
    if segsLowerVal 8 one.sectD.segs ≤ segsLowerVal 8 other.sectD.segs
    then (one, other) else (other, one)
  let lo := addressGetLower ordered.1
  let up := addressGetUpper ordered.2
  ⟨⟨some lo.sectD.withoutPrefixLength, ""⟩, ⟨some up.sectD.withoutPrefixLength, ""⟩⟩

/-- `IPv4Address.ToSequentialRange` (part_001:221-227) on a possibly-nil
receiver. -/
def ipv4ToSequentialRange : Option GoAddress → Option SeqRange
  | none => none
  | some addr0 =>
    let addr := ipv4AddressInit addr0
    some (NewIPv4SeqRange (ipv4GetLower addr) (ipv4GetUpper addr))

/-- `IPv6Address.ToSequentialRange` (ipv6addr.go:372-381) on a possibly-nil
receiver: strip the prefix and the zone, then build the unchecked range from
the lower and upper addresses. -/
def ipv6ToSequentialRange : Option GoAddress → Option SeqRange
  | none => none
  | some addr0 =>
    let addr := ipv6WithoutZone (ipv6WithoutPrefixLength (ipv6AddressInit addr0))
    some (newSeqRangeUnchecked (addressGetLower addr) (addressGetUpper addr))

/-! ### Containment (section.go:494-512) -/

/-- Modelled from the spec: segment-level `contains` (spec 4.1):
`self.lower ≤ other.lower ∧ other.upper ≤ self.upper`. -/
def Seg.Contains (g other : Seg) : Bool :=
  decide (g.lower ≤ other.lower) && decide (other.upper ≤ g.upper)

/-- `Contains` (section.go:494-512): the pointer-identity fast path, then
`matchesStructure` (modelled as equal address types; missing from src) with
the division-count check, then segment-wise containment. -/
def Sect.Contains (s other : Sect) : Bool :=
  if s = other then true
  else if (s.addrType == other.addrType) && (s.segs.length == other.segs.length) then
    (s.segs.zip other.segs).all fun gp => gp.1.Contains gp.2
  else false

/-- Membership of a single-valued tuple in the value set of a segment list:
the tuple has one value per segment, within that segment's range. -/
def inValueSet (segs : List Seg) (t : List Nat) : Prop :=
  List.Forall₂ (fun g v => g.lower ≤ v ∧ v ≤ g.upper) segs t

/-! ### Iteration and counting (section.go:684-704, part_000:136-142) -/

/-- Modelled from the spec: the ascending list of values of one segment
(the segment iterator). -/
def Seg.valuesList (g : Seg) : List Nat :=
  (List.range (g.upper + 1 - g.lower)).map fun k => g.lower + k

/-- Modelled from the spec: the row-major enumeration of all single-valued
segment tuples ("iteration ordering is fixed: most-significant segment
varies slowest", spec 4.2); realizes `allSegmentsIterator` (missing from
src). -/
def segTuples : List Seg → List (List Nat)
  | [] => [[]]
  | g :: rest => g.valuesList.flatMap fun v => (segTuples rest).map fun t => v :: t

/-- `GetCount` (`MACAddressSection.GetCount`, part_000:136-142; the `count`
big-int helper is missing from src and is modelled from the spec 4.2: the
product of the per-segment value counts). -/
def Sect.GetCount (s : Sect) : Nat :=
  (s.segs.map fun g => g.upper + 1 - g.lower).prod

/-- `sectionIterator` (section.go:684-704) with no exclusion: a non-multiple
section yields only the original; otherwise every single-valued section, in
row-major order (the iterator plumbing is missing from src and is modelled
from the spec). -/
def Sect.iteratorList (s : Sect) : List Sect :=
  if ¬ s.isMultiple then [s]
  else (segTuples s.segs).map fun t =>
    { segs := t.map fun v => ⟨v, v⟩, prefixLength := s.prefixLength, addrType := s.addrType }


/-! ### Single prefix blocks (C7) -/

/-- Modelled from the spec: segment-level `get_prefix_len_for_single_block`
(spec 4.1): `Some(p)` iff there exists `p` with
`contains_single_prefix_block(p)`; realized as the search over `0..bits`
(such a `p` is unique when it exists). -/
def Seg.GetPrefixLenForSingleBlock (bits : Nat) (g : Seg) : Option Nat :=
  (List.range (bits + 1)).find? fun p => g.containsSinglePrefixBlock bits p

/-- The loop of `ContainsSinglePrefixBlock` (ipaddrrangetest.go:4047-4075)
for an already clamped prefix, scanning divisions with the remaining prefix
bits: a division fully inside the prefix must be single-valued; the division
holding the prefix boundary must contain the single prefix block at the
remaining bits, and all later divisions must be full range. -/
def singlePrefixBlockGo (bits : Nat) : List Seg → Nat → Bool
  | [], _ => true
  | g :: rest, pc =>
    if bits ≤ pc then
      if g.isMultiple then false else singlePrefixBlockGo bits rest (pc - bits)
    else
      g.containsSinglePrefixBlock bits pc && rest.all (Seg.isFullRange bits)

/-- `ContainsSinglePrefixBlock` (ipaddrrangetest.go:4047-4075): clamp with
`checkSubnet`, then scan. -/
def Sect.ContainsSinglePrefixBlock (s : Sect) (p : Int) : Bool :=
  singlePrefixBlockGo s.addrType.bitsPerSegment s.segs (checkBitCount p s.GetBitCount)

/-- The loop of the `calc` closure of `GetPrefixLenForSingleBlock`
(ipaddrrangetest.go:4146-4168): accumulate each division prefix; when a
division prefix is below the division bit count, all later divisions must be
full range. -/
def prefixLenForSingleBlockGo (bits : Nat) : List Seg → Nat → Option Nat
  | [], total => some total
  | g :: rest, total =>
    match g.GetPrefixLenForSingleBlock bits with
    | none => none
    | some dp =>
      if dp < bits then
        (if rest.all (Seg.isFullRange bits) then some (total + dp) else none)
      else prefixLenForSingleBlockGo bits rest (total + dp)

/-- `GetPrefixLenForSingleBlock` (ipaddrrangetest.go:4146-4203, the cache
path dropped). -/
def Sect.GetPrefixLenForSingleBlock (s : Sect) : Option Nat :=
  prefixLenForSingleBlockGo s.addrType.bitsPerSegment s.segs 0

/-- Modelled from the spec: `set_prefix_len(p)` (spec 4.2): assign the new
prefix, segment values unchanged (`setPrefixLength` is missing from src). -/
def Sect.setPrefixLen (s : Sect) (p : Nat) : Sect :=
  { segs := s.segs, prefixLength := some p, addrType := s.addrType }

/-- `assignPrefixForSingleBlock` (section.go:486-492): nil when no single
prefix length exists, else `setPrefixLen` of it. -/
def Sect.assignPrefixForSingleBlock (s : Sect) : Option Sect :=
  match s.GetPrefixLenForSingleBlock with
  | none => none
  | some q => some (s.setPrefixLen q)


/-! ### Division groupings and sequentiality (C9) -/

/-- One division of a general grouping: a value range together with its own
bit count (divisions of a grouping need not share a size). -/
structure Division where
  lower : Nat
  upper : Nat
  bitCount : Nat
deriving DecidableEq, Repr

/-- Division well-formedness. -/
def Division.wf (d : Division) : Prop :=
  d.lower ≤ d.upper ∧ d.upper < 2 ^ d.bitCount

instance (d : Division) : Decidable (d.wf) := by
  unfold Division.wf
  infer_instance

def Division.isMultiple (d : Division) : Bool := d.lower != d.upper

/-- Modelled from the spec: division-level `is_full_range` (spec 4.1). -/
def Division.IsFullRange (d : Division) : Bool :=
  d.lower == 0 && d.upper == 2 ^ d.bitCount - 1

/-- The scan of `IsSequential` (ipaddrrangetest.go:4386-4401): find the
first multi-valued division; every division after it must be full range. -/
def isSequentialGo : List Division → Bool
  | [] => true
  | d :: rest => if d.isMultiple then rest.all Division.IsFullRange else isSequentialGo rest

/-- `IsSequential` (ipaddrrangetest.go:4386-4401), with the `count > 1`
early return of the source. -/
def IsSequential (divs : List Division) : Bool :=
  if divs.length ≤ 1 then true else isSequentialGo divs

/-- Total bit count of a division list. -/
def divsBits (l : List Division) : Nat := (l.map Division.bitCount).sum

/-- The lower value of a grouping, big-endian over the division bit counts
(`GetValue` via the byte rendering, ipaddrrangetest.go:4205). -/
def divsLowerVal : List Division → Nat
  | [] => 0
  | d :: rest => d.lower * 2 ^ divsBits rest + divsLowerVal rest

/-- The upper value of a grouping (`GetUpperValue`,
ipaddrrangetest.go:4212). -/
def divsUpperVal : List Division → Nat
  | [] => 0
  | d :: rest => d.upper * 2 ^ divsBits rest + divsUpperVal rest

/-- The ascending list of values of one division. -/
def Division.valuesList (d : Division) : List Nat :=
  (List.range (d.upper + 1 - d.lower)).map fun k => d.lower + k

/-- The value set of a grouping as a list: every combination of division
values, combined positionally. -/
def divsValueList : List Division → List Nat
  | [] => [0]
  | d :: rest => d.valuesList.flatMap fun v =>
      (divsValueList rest).map fun r => v * 2 ^ divsBits rest + r

/-! ### Increment (C6) -/

/-- The integer value of one segment tuple, big-endian over `bits`-bit
segments. -/
def tupleVal (bits : Nat) : List Nat → Nat
  | [] => 0
  | v :: rest => v * 2 ^ (bits * rest.length) + tupleVal bits rest

/-- `macMaxValues` (part_000:302-312): the family maximum per segment
count. -/
def macMaxValues : List Nat :=
  [0, 255, 65535, 16777215, 4294967295, 1099511627775, 281474976710655,
   72057594037927935, 18446744073709551615]

/-- `getMacMaxValueLong` (part_000:298-300). -/
def getMacMaxValueLong (segmentCount : Nat) : Nat := macMaxValues.getD segmentCount 0

/-- Modelled from the spec: the value reached by `increment(n)` — advance
`n` positions from the lower end of the row-major enumeration; inside the
enumeration this is the value of the n-th single tuple, for
`n >= count - 1` it continues past the upper end by integer arithmetic,
and symmetrically below the lower end for negative `n` (spec 4.2). -/
def incrementTargetVal (bits : Nat) (segs : List Seg) (n : Int) : Int :=
  if n < 0 then (segsLowerVal bits segs : Int) + n
  else if n.toNat < (segTuples segs).length then
    ((tupleVal bits ((segTuples segs).getD n.toNat [])) : Int)
  else (segsUpperVal bits segs : Int) + (n - (((segTuples segs).length : Int) - 1))

/-- Modelled from the spec: `checkOverflow` (missing from src) answers true
exactly when the reached value overflows above the family maximum or
underflows below zero (spec 4.2: "returns None on over/underflow"). -/
def checkOverflow (bits : Nat) (segs : List Seg) (n : Int) (maxValue : Nat) : Bool :=
  decide (incrementTargetVal bits segs n < 0) ||
    decide ((maxValue : Int) < incrementTargetVal bits segs n)

/-- Decompose a value into `count` single-valued segments of `bits` bits
each, big-endian. -/
def valToSegs (bits : Nat) : Nat → Nat → List Seg
  | 0, _ => []
  | count + 1, v =>
    ⟨v / 2 ^ (bits * count), v / 2 ^ (bits * count)⟩ ::
      valToSegs bits count (v % 2 ^ (bits * count))

/-- Modelled from the spec: the generic `increment` helper (missing from
src) — inside the enumeration, the n-th single-valued tuple in row-major
order; past either end, the single-valued section holding the reached
value; the prefix length is passed through (spec 4.2). -/
def incrementGeneric (s : Sect) (n : Int) : Sect :=
  let bits := s.addrType.bitsPerSegment
  if 0 ≤ n ∧ n.toNat < (segTuples s.segs).length then
    { segs := ((segTuples s.segs).getD n.toNat []).map fun v => ⟨v, v⟩,
      prefixLength := s.prefixLength, addrType := s.addrType }
  else
    { segs := valToSegs bits s.segs.length (incrementTargetVal bits s.segs n).toNat,
      prefixLength := s.prefixLength, addrType := s.addrType }

/-- `MACAddressSection.Increment` (part_000:313-338): return the receiver
on a zero increment of a non-multiple section; nil when `checkOverflow`
fires; otherwise the generic increment. -/
def MACIncrement (s : Sect) (n : Int) : Option Sect :=
  if n = 0 ∧ s.isMultiple = false then some s
  else if checkOverflow s.addrType.bitsPerSegment s.segs n
      (getMacMaxValueLong s.segs.length) then none
  else some (incrementGeneric s n)

/-! ### Arithmetic helpers for the prefix-block proofs -/

theorem quotMulAddDiv (q r m : Nat) (h : r < m) : (q * m + r) / m = q := by
  have hm : 0 < m := by omega
  rw [Nat.add_comm, Nat.add_mul_div_right _ _ hm, Nat.div_eq_of_lt h]
  omega

theorem quotMulAddMod (q r m : Nat) (h : r < m) : (q * m + r) % m = r :=
  Nat.mul_add_mod_of_lt h

/-- The clamped prefix is at most the bit count. -/
theorem checkBitCount_le (p : Int) (max : Nat) : checkBitCount p max ≤ max := by
  unfold checkBitCount
  split
  · exact Nat.le_refl _
  · split
    · exact Nat.zero_le _
    · omega

/-- `toPrefixedNetworkDivision` with segment prefix 0 on a well-formed
segment yields the full range. -/
theorem tpnd_zero_full (bits : Nat) (g : Seg) (hwf : g.wf bits) :
    (toPrefixedNetworkDivision bits (some 0) g).isFullRange bits = true := by
  obtain ⟨h1, h2⟩ := hwf
  simp only [toPrefixedNetworkDivision, Seg.isFullRange, Nat.sub_zero]
  have hl : g.lower / 2 ^ bits = 0 := Nat.div_eq_of_lt (by omega)
  have hu : g.upper / 2 ^ bits = 0 := Nat.div_eq_of_lt h2
  simp [hl, hu]

theorem lt_div_succ_mul (pc bits : Nat) (hb : 0 < bits) : pc < (pc / bits + 1) * bits := by
  have h := Nat.div_add_mod pc bits
  have hr : pc % bits < bits := Nat.mod_lt _ hb
  calc pc = bits * (pc / bits) + pc % bits := h.symm
    _ < bits * (pc / bits) + bits := by omega
    _ = (pc / bits + 1) * bits := by ring

theorem sub_host_mul_eq_mod (pc bits : Nat) (hpc0 : bits = 0 → pc = 0) :
    pc - pc / bits * bits = pc % bits := by
  rcases Nat.eq_zero_or_pos bits with hb | hb
  · have := hpc0 hb
    subst this hb
    rfl
  · have h := Nat.div_add_mod pc bits
    have h2 : bits * (pc / bits) = pc / bits * bits := Nat.mul_comm _ _
    omega

/-- The segments after the host segment index produced by the rebuild of
`toPrefixBlockLen` get segment prefix `some 0`. -/
theorem gpspl_after_host (bits pc j : Nat) (hj : pc / bits < j) (hpc0 : bits = 0 → pc = 0) :
    getPrefixedSegmentPrefixLength bits pc j = some 0 := by
  unfold getPrefixedSegmentPrefixLength getDivisionPrefixLength
  rcases Nat.eq_zero_or_pos bits with hb | hb
  · have := hpc0 hb
    subst this hb
    norm_num
  · have h1 : pc < (pc / bits + 1) * bits := lt_div_succ_mul pc bits hb
    have h2 : (pc / bits + 1) * bits ≤ j * bits := Nat.mul_le_mul_right _ (by omega)
    have h3 : (pc : Int) - (j * bits : Nat) ≤ 0 := by
      have : pc < j * bits := by omega
      push_cast
      omega
    simp only [if_pos h3]

/-- At the host segment index the segment prefix is `some (pc % bits)`. -/
theorem gpspl_at_host (bits pc : Nat) (hpc0 : bits = 0 → pc = 0) :
    getPrefixedSegmentPrefixLength bits pc (pc / bits) = some (pc % bits) := by
  unfold getPrefixedSegmentPrefixLength getDivisionPrefixLength
  have hA : pc / bits * bits ≤ pc := Nat.div_mul_le_self _ _
  have hsub : pc - pc / bits * bits = pc % bits := sub_host_mul_eq_mod pc bits hpc0
  have hcast : (pc : Int) - ((pc / bits * bits : Nat) : Int) = ((pc % bits : Nat) : Int) := by
    rw [← Nat.cast_sub hA, hsub]
  rw [hcast]
  rcases Nat.eq_zero_or_pos bits with hb | hb
  · have := hpc0 hb
    subst this hb
    norm_num
  · have hmlt : pc % bits < bits := Nat.mod_lt _ hb
    by_cases h0 : pc % bits = 0
    · simp [h0]
    · have hnot : ¬ ((pc % bits : Nat) : Int) ≤ 0 := by
        simp only [not_le]
        exact_mod_cast Nat.pos_of_ne_zero h0
      have hnot2 : ¬ ((bits : Nat) : Int) ≤ ((pc % bits : Nat) : Int) := by
        simp only [not_le]
        exact_mod_cast hmlt
      simp only [if_neg hnot, if_neg hnot2, Int.toNat_natCast]

/-- `toPrefixedNetworkDivision` with segment prefix `rem` contains the
prefix block at `rem` provided the bits above the host part agree in lower
and upper. -/
theorem tpnd_rem_contains (bits rem : Nat) (g : Seg)
    (hnet : g.lower / 2 ^ (bits - rem) = g.upper / 2 ^ (bits - rem)) :
    (toPrefixedNetworkDivision bits (some rem) g).containsPrefixBlock bits rem = true := by
  simp only [toPrefixedNetworkDivision, Seg.containsPrefixBlock]
  set m := 2 ^ (bits - rem) with hm
  have hmpos : 0 < m := Nat.pos_pow_of_pos _ (by omega)
  have h1 : g.lower / m * m / m = g.lower / m := Nat.mul_div_left _ hmpos
  have h2 : (g.upper / m * m + (m - 1)) / m = g.upper / m := quotMulAddDiv _ _ _ (by omega)
  have h3 : g.lower / m * m % m = 0 := Nat.mul_mod_left _ _
  have h4 : (g.upper / m * m + (m - 1)) % m = m - 1 := quotMulAddMod _ _ _ (by omega)
  simp only [h1, h2, h3, h4]
  rw [hnet]
  simp

/-- Claim C1, amended: for every section `S` and prefix length `p` (clamped
to the bit count), provided the segment straddling bit `p` has the same bits
above its segment-level prefix in its lower and upper value (automatic when
that segment is single-valued, or when `p` falls on a segment boundary),
`S.toPrefixBlockLen p` satisfies `ContainsPrefixBlock p`.  The proviso is
forced by the spec formula for segment-level `contains_prefix_block`, which
requires `(lower & ~mask) == (upper & ~mask)`. -/
theorem toPrefixBlockLen_ContainsPrefixBlock (s : Sect) (p : Int) (hwf : s.wf)
    (hnet :
      (s.segs.getD (checkBitCount p s.GetBitCount / s.addrType.bitsPerSegment) ⟨0, 0⟩).lower /
          2 ^ (s.addrType.bitsPerSegment - checkBitCount p s.GetBitCount % s.addrType.bitsPerSegment) =
        (s.segs.getD (checkBitCount p s.GetBitCount / s.addrType.bitsPerSegment) ⟨0, 0⟩).upper /
          2 ^ (s.addrType.bitsPerSegment - checkBitCount p s.GetBitCount % s.addrType.bitsPerSegment)) :
    (s.toPrefixBlockLen p).ContainsPrefixBlock p = true := by
  have hpcle : checkBitCount p s.GetBitCount ≤
      s.addrType.bitsPerSegment * s.segs.length := by
    have h := checkBitCount_le p s.GetBitCount
    have e : s.GetBitCount = s.addrType.bitsPerSegment * s.segs.length := rfl
    rw [e] at h
    exact h
  generalize hbits : s.addrType.bitsPerSegment = bits at *
  generalize hpc : checkBitCount p s.GetBitCount = pc at *
  have hpc0 : bits = 0 → pc = 0 := fun hb => by
    subst hb
    omega
  unfold Sect.toPrefixBlockLen
  rw [hbits, hpc]
  by_cases hn0 : s.segs.length = 0
  · simp only [if_pos hn0]
    unfold Sect.ContainsPrefixBlock prefixBlockCheck
    rw [hbits, hpc]
    have hni : ¬ (getHostSegmentIndex pc bits < s.segs.length) := by omega
    simp [hni]
  · simp only [if_neg hn0]
    by_cases hfast : ((s.prefixLength == some pc) && prefixBlockCheck bits s.segs pc) = true
    · simp only [if_pos hfast]
      unfold Sect.ContainsPrefixBlock
      rw [hbits, hpc]
      exact ((Bool.and_eq_true _ _).mp hfast).2
    · simp only [if_neg hfast]
      -- the rebuilt section
      unfold Sect.ContainsPrefixBlock prefixBlockCheck
      simp only [Sect.GetBitCount, List.length_map, List.length_range]
      have hpc2 : checkBitCount p (bits * s.segs.length) = pc := by
        have e : s.GetBitCount = bits * s.segs.length := by
          rw [← hbits]
          rfl
        rw [← e]
        exact hpc
      rw [hbits, hpc2]
      set psi := (if 0 < pc then getNetworkSegmentIndex pc bits else 0) with hpsi
      set f : Nat → Seg := fun i =>
        if i < psi then s.segs.getD i ⟨0, 0⟩
        else toPrefixedNetworkDivision bits (getPrefixedSegmentPrefixLength bits pc i)
          (s.segs.getD i ⟨0, 0⟩) with hf
      set istar := getHostSegmentIndex pc bits with histar
      have hgetf : ∀ (i : Nat), i < s.segs.length →
          ((List.range s.segs.length).map f).getD i ⟨0, 0⟩ = f i := by
        intro i hilt
        rw [List.getD_eq_getElem _ _ (by simpa using hilt)]
        simp
      by_cases hi : istar < s.segs.length
      · have hle : psi ≤ istar := by
          rw [hpsi, histar]
          by_cases h0 : 0 < pc
          · simp only [if_pos h0]
            unfold getNetworkSegmentIndex getHostSegmentIndex
            exact Nat.div_le_div_right (by omega)
          · simp [if_neg h0]
        rw [if_pos hi]
        apply (Bool.and_eq_true _ _).mpr
        constructor
        · -- the straddling segment
          rw [hgetf istar hi]
          have hflat : f istar = toPrefixedNetworkDivision bits (some (pc % bits))
              (s.segs.getD istar ⟨0, 0⟩) := by
            rw [hf]
            simp only [if_neg (by omega : ¬ istar < psi)]
            rw [histar]
            unfold getHostSegmentIndex
            rw [gpspl_at_host bits pc hpc0]
          rw [hflat]
          have hrem : pc - istar * bits = pc % bits := by
            rw [histar]
            exact sub_host_mul_eq_mod pc bits hpc0
          rw [hrem]
          apply tpnd_rem_contains
          rw [histar] at *
          unfold getHostSegmentIndex at *
          exact hnet
        · -- the segments after the straddling one are full range
          apply List.all_eq_true.mpr
          intro g hg
          obtain ⟨j, hjlt, hjeq⟩ := List.getElem_of_mem hg
          rw [List.getElem_drop] at hjeq
          have hjlt2 : istar + 1 + j < s.segs.length := by
            simp only [List.length_drop, List.length_map, List.length_range] at hjlt
            omega
          have hjeq2 : g = f (istar + 1 + j) := by
            rw [← hjeq]
            simp
          have hfval : f (istar + 1 + j) = toPrefixedNetworkDivision bits (some 0)
              (s.segs.getD (istar + 1 + j) ⟨0, 0⟩) := by
            rw [hf]
            simp only [if_neg (by omega : ¬ istar + 1 + j < psi)]
            rw [gpspl_after_host bits pc (istar + 1 + j)
              (by rw [histar] at *; unfold getHostSegmentIndex at *; omega) hpc0]
          have hmem : s.segs.getD (istar + 1 + j) ⟨0, 0⟩ ∈ s.segs := by
            rw [List.getD_eq_getElem _ _ hjlt2]
            exact List.getElem_mem _
          rw [hjeq2, hfval]
          exact tpnd_zero_full bits _ (hbits ▸ hwf _ hmem)
      · rw [if_neg hi]

/-- Claim C1, counterexample: the IPv4 section `0-3.0.0.0` taken to the
prefix block of length 7 does not satisfy `ContainsPrefixBlock 7`: the
straddling segment of the block is `[0, 3]`, whose bits above the
segment-level prefix 7 differ between lower (`0`) and upper (`1`), which the
segment-level `contains_prefix_block` formula of the spec rejects. -/
theorem claim1_counterexample :
    ((Sect.mk [⟨0, 3⟩, ⟨0, 0⟩, ⟨0, 0⟩, ⟨0, 0⟩] none .ipv4).toPrefixBlockLen 7).ContainsPrefixBlock 7
      = false := by decide

/-- Claim C1, witness for the amended theorem at the single-valued IPv4
section `1.2.3.4` with prefix length 16. -/
theorem claim1_witness :
    ((Sect.mk [⟨1, 1⟩, ⟨2, 2⟩, ⟨3, 3⟩, ⟨4, 4⟩] none .ipv4).toPrefixBlockLen 16).ContainsPrefixBlock 16
      = true :=
  toPrefixBlockLen_ContainsPrefixBlock
    (Sect.mk [⟨1, 1⟩, ⟨2, 2⟩, ⟨3, 3⟩, ⟨4, 4⟩] none .ipv4) 16 (by decide) (by decide)

/-- Claim C3: evaluation of `getSubSection` at the failing input.  On the
four-segment IPv4 section `1.2.3.4`, `getSubSection 1 2` must by the claim
(and by the function's own doc comment) contain exactly the one segment of
`[1, 2)`; the source instead raises `endIndex` to the segment count and
returns the three segments `[1, 4)`. -/
theorem claim3_bug_eval :
    (Sect.mk [⟨1, 1⟩, ⟨2, 2⟩, ⟨3, 3⟩, ⟨4, 4⟩] none .ipv4).getSubSection 1 2
      = Sect.mk [⟨2, 2⟩, ⟨3, 3⟩, ⟨4, 4⟩] none .ipv4 := by decide

/-- Claim C10: `PrefixBitCount.Compare` defines a total order (reflexive,
antisymmetric, antitone under swap, transitive, total) on optional prefix
lengths in which nil is strictly greater than every present value and
present values compare by numeric value, while `Len` cannot distinguish nil
from a present prefix of length 0. -/
theorem claim10_theorem :
    (∀ a : Option Nat, prefixBitCountCompare a a = 0) ∧
    (∀ a b : Option Nat, prefixBitCountCompare a b = 0 → a = b) ∧
    (∀ a b : Option Nat, prefixBitCountCompare a b = - prefixBitCountCompare b a) ∧
    (∀ a b c : Option Nat,
      prefixBitCountCompare a b ≤ 0 → prefixBitCountCompare b c ≤ 0 →
        prefixBitCountCompare a c ≤ 0) ∧
    (∀ a b : Option Nat, prefixBitCountCompare a b ≤ 0 ∨ prefixBitCountCompare b a ≤ 0) ∧
    (∀ x : Nat, 0 < prefixBitCountCompare none (some x)) ∧
    (∀ x y : Nat, prefixBitCountCompare (some x) (some y) ≤ 0 ↔ x ≤ y) ∧
    prefixBitCountLen none = prefixBitCountLen (some 0) := by
  refine ⟨?_, ?_, ?_, ?_, ?_, ?_, ?_, rfl⟩
  · rintro (_ | a) <;> simp [prefixBitCountCompare]
  · rintro (_ | a) (_ | b) h <;> simp_all [prefixBitCountCompare] <;> omega
  · rintro (_ | a) (_ | b) <;> simp [prefixBitCountCompare]
  · rintro (_ | a) (_ | b) (_ | c) h1 h2 <;> simp_all [prefixBitCountCompare] <;> omega
  · rintro (_ | a) (_ | b) <;> simp [prefixBitCountCompare] <;> omega
  · intro x
    simp [prefixBitCountCompare]
  · intro x y
    simp only [prefixBitCountCompare]
    omega

/-- Claim C10, witness: the transitivity component applied at concrete
prefix lengths. -/
theorem claim10_witness : prefixBitCountCompare (some 1) (some 5) ≤ 0 :=
  claim10_theorem.2.2.2.1 (some 1) (some 3) (some 5) (by decide) (by decide)

/-- Claim C8: the four conversions return nil on a nil `*Address` rather
than panicking, and an address whose section field is nil behaves in the
embedded operations as the zero address of its type via the `init()`
substitution (for IPv4, as `0.0.0.0`). -/
theorem claim8_theorem :
    addressToIPAddress none = none ∧
    addressToIPv4Address none = none ∧
    addressToIPv6Address none = none ∧
    addressToMACAddress none = none ∧
    (∀ z : String, ipv4AddressInit ⟨none, z⟩ = zeroIPv4) ∧
    zeroIPv4.sectD.segs = [⟨0, 0⟩, ⟨0, 0⟩, ⟨0, 0⟩, ⟨0, 0⟩] ∧
    zeroIPv4.sectD.isMultiple = false ∧
    segsLowerVal 8 zeroIPv4.sectD.segs = 0 ∧
    (∀ z : String, ipv4GetLower ⟨none, z⟩ = ipv4GetLower zeroIPv4) ∧
    (∀ z : String, ipv4GetUpper ⟨none, z⟩ = ipv4GetUpper zeroIPv4) ∧
    (∀ z : String, ipv4ToSequentialRange (some ⟨none, z⟩) = ipv4ToSequentialRange (some zeroIPv4)) := by
  refine ⟨rfl, rfl, rfl, rfl, fun z => rfl, rfl, rfl, rfl, fun z => rfl, fun z => rfl, fun z => rfl⟩

/-! ### Value lemmas for sections (used by C4 and later claims) -/

/-- Lower value never exceeds upper value, segment-wise monotone. -/
theorem segsLowerVal_le_upperVal (bits : Nat) (segs : List Seg)
    (h : ∀ g ∈ segs, g.lower ≤ g.upper) :
    segsLowerVal bits segs ≤ segsUpperVal bits segs := by
  induction segs with
  | nil => exact Nat.le_refl _
  | cons g rest ih =>
    simp only [segsLowerVal, segsUpperVal]
    have h1 : g.lower ≤ g.upper := h g (List.mem_cons_self _ _)
    have h2 := ih fun x hx => h x (List.mem_cons_of_mem _ hx)
    exact Nat.add_le_add (Nat.mul_le_mul_right _ h1) h2

/-- Collapsing each segment to its lower bound preserves the lower value. -/
theorem segsLowerVal_map_lower (bits : Nat) (segs : List Seg) :
    segsLowerVal bits (segs.map fun g => (⟨g.lower, g.lower⟩ : Seg)) = segsLowerVal bits segs := by
  induction segs with
  | nil => rfl
  | cons g rest ih =>
    simp only [List.map_cons, segsLowerVal, List.length_map]
    rw [ih]

/-- Collapsing each segment to its upper bound turns the lower value into
the upper value. -/
theorem segsLowerVal_map_upper (bits : Nat) (segs : List Seg) :
    segsLowerVal bits (segs.map fun g => (⟨g.upper, g.upper⟩ : Seg)) = segsUpperVal bits segs := by
  induction segs with
  | nil => rfl
  | cons g rest ih =>
    simp only [List.map_cons, segsLowerVal, segsUpperVal, List.length_map]
    rw [ih]

/-- The lower section of a section has the lower value of the section. -/
theorem getLowerSect_lowerVal (bits : Nat) (s : Sect) :
    segsLowerVal bits s.getLowerSect.segs = segsLowerVal bits s.segs := by
  unfold Sect.getLowerSect
  split
  · rfl
  · exact segsLowerVal_map_lower bits s.segs

/-- On single-valued segments the lower and upper values coincide. -/
theorem segsVal_eq_of_single (bits : Nat) (l : List Seg)
    (h : ∀ g ∈ l, g.lower = g.upper) :
    segsLowerVal bits l = segsUpperVal bits l := by
  induction l with
  | nil => rfl
  | cons g rest ih =>
    simp only [segsLowerVal, segsUpperVal]
    rw [h g (List.mem_cons_self _ _), ih fun x hx => h x (List.mem_cons_of_mem _ hx)]

/-- A non-multiple section has only single-valued segments. -/
theorem single_of_not_multiple (s : Sect) (hnm : ¬ s.isMultiple = true) :
    ∀ g ∈ s.segs, g.lower = g.upper := by
  intro g hg
  by_contra hne
  apply hnm
  simp only [Sect.isMultiple, List.any_eq_true]
  exact ⟨g, hg, by simp [Seg.isMultiple, hne]⟩

/-- The upper section of a section has the upper value of the section,
provided segments are ordered. -/
theorem getUpperSect_lowerVal (bits : Nat) (s : Sect)
    (h : ∀ g ∈ s.segs, g.lower ≤ g.upper) :
    segsLowerVal bits s.getUpperSect.segs = segsUpperVal bits s.segs := by
  unfold Sect.getUpperSect
  split
  · rename_i hnm
    exact segsVal_eq_of_single bits s.segs (single_of_not_multiple s hnm)
  · exact segsLowerVal_map_upper bits s.segs

/-- The lower section is single-valued. -/
theorem getLowerSect_not_multiple (s : Sect) : s.getLowerSect.isMultiple = false := by
  unfold Sect.getLowerSect
  split
  · rename_i hnm
    simpa using hnm
  · simp [Sect.isMultiple, List.any_map, Function.comp, Seg.isMultiple]

/-- The upper section is single-valued. -/
theorem getUpperSect_not_multiple (s : Sect) : s.getUpperSect.isMultiple = false := by
  unfold Sect.getUpperSect
  split
  · rename_i hnm
    simpa using hnm
  · simp [Sect.isMultiple, List.any_map, Function.comp, Seg.isMultiple]

/-- Segments of the upper section are ordered whenever the section's are. -/
theorem getUpperSect_ordered (s : Sect) (h : ∀ g ∈ s.segs, g.lower ≤ g.upper) :
    ∀ g ∈ s.getUpperSect.segs, g.lower ≤ g.upper := by
  unfold Sect.getUpperSect
  split
  · exact h
  · intro g hg
    simp only [List.mem_map] at hg
    obtain ⟨x, _, rfl⟩ := hg
    exact Nat.le_refl _

/-- Collapsing to upper bounds preserves the upper value. -/
theorem segsUpperVal_map_upper (bits : Nat) (segs : List Seg) :
    segsUpperVal bits (segs.map fun g => (⟨g.upper, g.upper⟩ : Seg)) = segsUpperVal bits segs := by
  induction segs with
  | nil => rfl
  | cons g rest ih =>
    simp only [List.map_cons, segsUpperVal, List.length_map]
    rw [ih]

/-- The upper section keeps the upper value. -/
theorem getUpperSect_upperVal (bits : Nat) (s : Sect) :
    segsUpperVal bits s.getUpperSect.segs = segsUpperVal bits s.segs := by
  unfold Sect.getUpperSect
  split
  · rfl
  · exact segsUpperVal_map_upper bits s.segs

theorem withoutPrefixLength_segs (s : Sect) : s.withoutPrefixLength.segs = s.segs := by
  unfold Sect.withoutPrefixLength
  split <;> rfl

theorem withoutPrefixLength_none (s : Sect) : s.withoutPrefixLength.prefixLength = none := by
  unfold Sect.withoutPrefixLength
  split
  · assumption
  · rfl

theorem getLowerSect_prefixLength (s : Sect) :
    s.getLowerSect.prefixLength = s.prefixLength := by
  unfold Sect.getLowerSect
  split <;> rfl

theorem getUpperSect_prefixLength (s : Sect) :
    s.getUpperSect.prefixLength = s.prefixLength := by
  unfold Sect.getUpperSect
  split <;> rfl

theorem isMultiple_withoutPrefixLength (s : Sect) :
    s.withoutPrefixLength.isMultiple = s.isMultiple := by
  unfold Sect.isMultiple
  rw [withoutPrefixLength_segs]

/-- Invariants of the IPv4 sequential range built from an initialized
address with ordered segments. -/
theorem newIPv4SeqRange_invariants (addr : GoAddress) (S : Sect)
    (hS : addr.sect = some S) (hord : ∀ g ∈ S.segs, g.lower ≤ g.upper) :
    (NewIPv4SeqRange (addressGetLower addr) (addressGetUpper addr)).lower.sectD.isMultiple = false ∧
    (NewIPv4SeqRange (addressGetLower addr) (addressGetUpper addr)).upper.sectD.isMultiple = false ∧
    (NewIPv4SeqRange (addressGetLower addr) (addressGetUpper addr)).lower.sectD.prefixLength = none ∧
    (NewIPv4SeqRange (addressGetLower addr) (addressGetUpper addr)).upper.sectD.prefixLength = none ∧
    (NewIPv4SeqRange (addressGetLower addr) (addressGetUpper addr)).lower.zone = "" ∧
    (NewIPv4SeqRange (addressGetLower addr) (addressGetUpper addr)).upper.zone = "" ∧
    segsLowerVal 8 (NewIPv4SeqRange (addressGetLower addr) (addressGetUpper addr)).lower.sectD.segs ≤
      segsLowerVal 8 (NewIPv4SeqRange (addressGetLower addr) (addressGetUpper addr)).upper.sectD.segs := by
  simp only [NewIPv4SeqRange, addressGetLower, addressGetUpper, GoAddress.sectD, hS,
    Option.getD_some]
  have hcond : segsLowerVal 8 S.getLowerSect.segs ≤ segsLowerVal 8 S.getUpperSect.segs := by
    rw [getLowerSect_lowerVal, getUpperSect_lowerVal 8 S hord]
    exact segsLowerVal_le_upperVal 8 S.segs hord
  rw [if_pos hcond]
  simp only [GoAddress.sectD, Option.getD_some]
  refine ⟨?_, ?_, ?_, ?_, trivial, trivial, ?_⟩
  · rw [isMultiple_withoutPrefixLength]
    exact getLowerSect_not_multiple _
  · rw [isMultiple_withoutPrefixLength]
    exact getUpperSect_not_multiple _
  · exact withoutPrefixLength_none _
  · exact withoutPrefixLength_none _
  · rw [withoutPrefixLength_segs, withoutPrefixLength_segs]
    rw [getLowerSect_lowerVal, getLowerSect_lowerVal]
    rw [getUpperSect_lowerVal 8 _ (getUpperSect_ordered S hord), getUpperSect_upperVal]
    exact segsLowerVal_le_upperVal 8 S.segs hord

/-- Claim C4: for every address (IPv4 or IPv6, with ordered segments), the
sequential range produced by `ToSequentialRange` exists and has endpoints
that are single-valued, carry no prefix length, carry no zone, and satisfy
`lower ≤ upper` on the full integer value. -/
theorem claim4_theorem (a : GoAddress)
    (hord : ∀ g ∈ a.sectD.segs, g.lower ≤ g.upper) :
    ((ipv4ToSequentialRange (some a)).isSome = true ∧
      (∀ r, ipv4ToSequentialRange (some a) = some r →
        r.lower.sectD.isMultiple = false ∧ r.upper.sectD.isMultiple = false ∧
        r.lower.sectD.prefixLength = none ∧ r.upper.sectD.prefixLength = none ∧
        r.lower.zone = "" ∧ r.upper.zone = "" ∧
        segsLowerVal 8 r.lower.sectD.segs ≤ segsLowerVal 8 r.upper.sectD.segs)) ∧
    ((ipv6ToSequentialRange (some a)).isSome = true ∧
      (∀ r, ipv6ToSequentialRange (some a) = some r →
        r.lower.sectD.isMultiple = false ∧ r.upper.sectD.isMultiple = false ∧
        r.lower.sectD.prefixLength = none ∧ r.upper.sectD.prefixLength = none ∧
        r.lower.zone = "" ∧ r.upper.zone = "" ∧
        segsLowerVal 16 r.lower.sectD.segs ≤ segsLowerVal 16 r.upper.sectD.segs)) := by
  constructor
  · -- the IPv4 side
    refine ⟨rfl, ?_⟩
    intro r hr
    have hS : ∃ S, (ipv4AddressInit a).sect = some S ∧ ∀ g ∈ S.segs, g.lower ≤ g.upper := by
      by_cases hn : a.sect = none
      · refine ⟨zeroIPv4.sectD, ?_, by decide⟩
        simp [ipv4AddressInit, hn, zeroIPv4, GoAddress.sectD]
      · obtain ⟨s, hs⟩ := Option.ne_none_iff_exists'.mp hn
        refine ⟨s, ?_, ?_⟩
        · simp [ipv4AddressInit, hn, hs]
        · have : a.sectD = s := by simp [GoAddress.sectD, hs]
          rw [← this]
          exact hord
    obtain ⟨S, hSeq, hSord⟩ := hS
    have hinit2 : ipv4AddressInit (ipv4AddressInit a) = ipv4AddressInit a := by
      by_cases hn : a.sect = none <;> simp [ipv4AddressInit, hn, zeroIPv4]
    have hr2 : r = NewIPv4SeqRange (addressGetLower (ipv4AddressInit a))
        (addressGetUpper (ipv4AddressInit a)) := by
      have heq : ipv4ToSequentialRange (some a) =
          some (NewIPv4SeqRange (addressGetLower (ipv4AddressInit a))
            (addressGetUpper (ipv4AddressInit a))) := by
        simp only [ipv4ToSequentialRange, ipv4GetLower, ipv4GetUpper]
        rw [hinit2]
      rw [heq] at hr
      exact (Option.some_inj.mp hr).symm
    subst hr2
    exact newIPv4SeqRange_invariants _ S hSeq hSord
  · -- the IPv6 side
    refine ⟨rfl, ?_⟩
    intro r hr
    have hS : ∃ S, (ipv6AddressInit a).sect = some S ∧ ∀ g ∈ S.segs, g.lower ≤ g.upper := by
      by_cases hn : a.sect = none
      · refine ⟨zeroIPv6.sectD, ?_, by decide⟩
        simp [ipv6AddressInit, hn, zeroIPv6, GoAddress.sectD]
      · obtain ⟨s, hs⟩ := Option.ne_none_iff_exists'.mp hn
        refine ⟨s, ?_, ?_⟩
        · simp [ipv6AddressInit, hn, hs]
        · have : a.sectD = s := by simp [GoAddress.sectD, hs]
          rw [← this]
          exact hord
    obtain ⟨S, hSeq, hSord⟩ := hS
    set sp := S.withoutPrefixLength with hsp
    have hspord : ∀ g ∈ sp.segs, g.lower ≤ g.upper := by
      rw [hsp, withoutPrefixLength_segs]
      exact hSord
    have haddr : ipv6WithoutZone (ipv6WithoutPrefixLength (ipv6AddressInit a)) =
        ⟨some sp, ""⟩ := by
      have hsectD : (ipv6AddressInit a).sectD = S := by
        simp [GoAddress.sectD, hSeq]
      have hinit2 : ipv6AddressInit (ipv6AddressInit a) = ipv6AddressInit a := by
        by_cases hn : a.sect = none <;> simp [ipv6AddressInit, hn, zeroIPv6]
      simp only [ipv6WithoutZone, ipv6WithoutPrefixLength]
      rw [hinit2, hsectD]
      split
      · rfl
      · rename_i hz
        simp only [ne_eq, not_not] at hz
        simp [hz]
    have hr2 : r = newSeqRangeUnchecked (addressGetLower ⟨some sp, ""⟩)
        (addressGetUpper ⟨some sp, ""⟩) := by
      simp only [ipv6ToSequentialRange] at hr
      rw [haddr] at hr
      exact (Option.some_inj.mp hr).symm
    subst hr2
    unfold newSeqRangeUnchecked
    simp only [addressGetLower, addressGetUpper, GoAddress.sectD, Option.getD_some]
    refine ⟨?_, ?_, ?_, ?_, trivial, trivial, ?_⟩
    · exact getLowerSect_not_multiple _
    · exact getUpperSect_not_multiple _
    · rw [getLowerSect_prefixLength, hsp]
      exact withoutPrefixLength_none _
    · rw [getUpperSect_prefixLength, hsp]
      exact withoutPrefixLength_none _
    · rw [getLowerSect_lowerVal, getUpperSect_lowerVal 16 sp hspord]
      exact segsLowerVal_le_upperVal 16 sp.segs hspord

/-- Claim C4, witness at a concrete multi-valued prefixed address. -/
theorem claim4_witness :
    ((ipv4ToSequentialRange (some ⟨some ⟨[⟨1, 2⟩, ⟨0, 255⟩, ⟨3, 3⟩, ⟨4, 4⟩], some 16, .ipv4⟩, ""⟩)).isSome = true ∧
      (∀ r, ipv4ToSequentialRange (some ⟨some ⟨[⟨1, 2⟩, ⟨0, 255⟩, ⟨3, 3⟩, ⟨4, 4⟩], some 16, .ipv4⟩, ""⟩) = some r →
        r.lower.sectD.isMultiple = false ∧ r.upper.sectD.isMultiple = false ∧
        r.lower.sectD.prefixLength = none ∧ r.upper.sectD.prefixLength = none ∧
        r.lower.zone = "" ∧ r.upper.zone = "" ∧
        segsLowerVal 8 r.lower.sectD.segs ≤ segsLowerVal 8 r.upper.sectD.segs)) ∧
    ((ipv6ToSequentialRange (some ⟨some ⟨[⟨1, 2⟩, ⟨0, 255⟩, ⟨3, 3⟩, ⟨4, 4⟩], some 16, .ipv4⟩, ""⟩)).isSome = true ∧
      (∀ r, ipv6ToSequentialRange (some ⟨some ⟨[⟨1, 2⟩, ⟨0, 255⟩, ⟨3, 3⟩, ⟨4, 4⟩], some 16, .ipv4⟩, ""⟩) = some r →
        r.lower.sectD.isMultiple = false ∧ r.upper.sectD.isMultiple = false ∧
        r.lower.sectD.prefixLength = none ∧ r.upper.sectD.prefixLength = none ∧
        r.lower.zone = "" ∧ r.upper.zone = "" ∧
        segsLowerVal 16 r.lower.sectD.segs ≤ segsLowerVal 16 r.upper.sectD.segs)) :=
  claim4_theorem ⟨some ⟨[⟨1, 2⟩, ⟨0, 255⟩, ⟨3, 3⟩, ⟨4, 4⟩], some 16, .ipv4⟩, ""⟩ (by decide)

/-- Zip-all segment containment is pairwise containment. -/
theorem zip_all_contains_iff (la lb : List Seg) (hlen : la.length = lb.length) :
    ((la.zip lb).all fun gp => gp.1.Contains gp.2) = true ↔
      List.Forall₂ (fun x y => x.lower ≤ y.lower ∧ y.upper ≤ x.upper) la lb := by
  induction la generalizing lb with
  | nil =>
    cases lb with
    | nil => simp
    | cons y lb2 => simp at hlen
  | cons x la2 ih =>
    cases lb with
    | nil => simp at hlen
    | cons y lb2 =>
      simp only [List.zip_cons_cons, List.all_cons, Bool.and_eq_true, List.forall₂_cons]
      rw [ih lb2 (by simpa using hlen)]
      simp [Seg.Contains]

/-- The tuple of segment lower bounds is in the value set. -/
theorem lowers_inValueSet (l : List Seg) (hord : ∀ g ∈ l, g.lower ≤ g.upper) :
    inValueSet l (l.map Seg.lower) := by
  induction l with
  | nil => exact List.Forall₂.nil
  | cons g rest ih =>
    exact List.Forall₂.cons ⟨Nat.le_refl _, hord g (List.mem_cons_self _ _)⟩
      (ih fun x hx => hord x (List.mem_cons_of_mem _ hx))

/-- Pairwise interval containment is value-set containment. -/
theorem forall2_contains_iff (la lb : List Seg) (hlen : la.length = lb.length)
    (hord : ∀ g ∈ lb, g.lower ≤ g.upper) :
    List.Forall₂ (fun x y => x.lower ≤ y.lower ∧ y.upper ≤ x.upper) la lb ↔
      (∀ t, inValueSet lb t → inValueSet la t) := by
  constructor
  · intro h t ht
    unfold inValueSet at ht ⊢
    clear hlen hord
    induction h generalizing t with
    | nil => exact ht
    | @cons x y la2 lb2 hxy _ ih =>
      cases ht with
      | cons hv hts =>
        exact List.Forall₂.cons ⟨Nat.le_trans hxy.1 hv.1, Nat.le_trans hv.2 hxy.2⟩ (ih _ hts)
  · intro h
    induction la generalizing lb with
    | nil =>
      cases lb with
      | nil => exact List.Forall₂.nil
      | cons y lb2 => simp at hlen
    | cons x la2 ih =>
      cases lb with
      | nil => simp at hlen
      | cons y lb2 =>
        have hordy : y.lower ≤ y.upper := hord y (List.mem_cons_self _ _)
        have hord2 : ∀ g ∈ lb2, g.lower ≤ g.upper := fun g hg => hord g (List.mem_cons_of_mem _ hg)
        have hlows := lowers_inValueSet lb2 hord2
        have h1 := h (y.lower :: lb2.map Seg.lower)
          (List.Forall₂.cons ⟨Nat.le_refl _, hordy⟩ hlows)
        have h2 := h (y.upper :: lb2.map Seg.lower)
          (List.Forall₂.cons ⟨hordy, Nat.le_refl _⟩ hlows)
        cases h1 with
        | cons hh1 _ =>
          cases h2 with
          | cons hh2 _ =>
            refine List.Forall₂.cons ⟨hh1.1, hh2.2⟩ ?_
            apply ih lb2 (by simpa using hlen) hord2
            intro t ht
            have h3 := h (y.lower :: t) (List.Forall₂.cons ⟨Nat.le_refl _, hordy⟩ ht)
            cases h3 with
            | cons _ htail => exact htail

/-- Claim C2: for sections of the same family and segment count (with
ordered segments in the contained one), `Contains` returns true exactly when
every single-valued tuple of the value set of the other section lies in the
value set of this section. -/
theorem claim2_theorem (a b : Sect)
    (hord : ∀ g ∈ b.segs, g.lower ≤ g.upper)
    (hty : a.addrType = b.addrType) (hlen : a.segs.length = b.segs.length) :
    a.Contains b = true ↔ (∀ t, inValueSet b.segs t → inValueSet a.segs t) := by
  unfold Sect.Contains
  by_cases heq : a = b
  · subst heq
    simp only [if_pos rfl]
    constructor
    · intro _ t ht
      exact ht
    · intro _
      rfl
  · rw [if_neg heq, if_pos (by simp [hty, hlen])]
    rw [zip_all_contains_iff a.segs b.segs hlen]
    exact forall2_contains_iff a.segs b.segs hlen hord

/-- Claim C2, witness at two concrete two-segment MAC sections. -/
theorem claim2_witness :
    (Sect.mk [⟨0, 10⟩, ⟨5, 7⟩] none .mac).Contains (Sect.mk [⟨2, 3⟩, ⟨5, 5⟩] none .mac) = true ↔
      (∀ t, inValueSet [⟨2, 3⟩, ⟨5, 5⟩] t → inValueSet [⟨0, 10⟩, ⟨5, 7⟩] t) :=
  claim2_theorem (Sect.mk [⟨0, 10⟩, ⟨5, 7⟩] none .mac) (Sect.mk [⟨2, 3⟩, ⟨5, 5⟩] none .mac)
    (by decide) (by decide) (by decide)

/-! ### Iterator lemmas (C5) -/

theorem sum_map_constant {α : Type} (l : List α) (c : Nat) :
    (l.map fun _ => c).sum = l.length * c := by
  induction l with
  | nil => simp
  | cons x l ih =>
    simp only [List.map_cons, List.sum_cons, ih, List.length_cons, Nat.succ_mul]
    omega

theorem segTuples_length (l : List Seg) :
    (segTuples l).length = (l.map fun g => g.upper + 1 - g.lower).prod := by
  induction l with
  | nil => rfl
  | cons g rest ih =>
    rw [segTuples, List.length_flatMap]
    simp only [Function.comp_def, List.length_map]
    rw [sum_map_constant, ih]
    simp [Seg.valuesList]

theorem segTuples_nodup (l : List Seg) : (segTuples l).Nodup := by
  induction l with
  | nil => simp [segTuples]
  | cons g rest ih =>
    rw [segTuples, List.nodup_flatMap]
    constructor
    · intro v _
      exact ih.map fun t1 t2 h => by simpa using h
    · have hnd : g.valuesList.Nodup := by
        apply List.Nodup.map
        · intro a b hab
          simp only at hab
          omega
        · exact List.nodup_range _
      apply List.Pairwise.imp ?_ hnd
      intro v1 v2 hne x hx1 hx2
      simp only [List.mem_map] at hx1 hx2
      obtain ⟨t1, _, rfl⟩ := hx1
      obtain ⟨t2, _, ht2⟩ := hx2
      apply hne
      injection ht2 with h1 h2
      exact h1.symm

theorem prod_counts_single (l : List Seg) (h : ∀ g ∈ l, g.lower = g.upper) :
    (l.map fun g => g.upper + 1 - g.lower).prod = 1 := by
  induction l with
  | nil => rfl
  | cons g rest ih =>
    simp only [List.map_cons, List.prod_cons]
    rw [h g (List.mem_cons_self _ _), ih fun x hx => h x (List.mem_cons_of_mem _ hx)]
    omega

/-- Claim C5: the iterator of a section yields exactly `GetCount` pairwise
distinct single-valued elements, `GetCount` being the product of the
per-segment value counts. -/
theorem claim5_theorem (s : Sect) :
    s.iteratorList.length = s.GetCount ∧ s.iteratorList.Nodup ∧
    (s.iteratorList.all fun r => !r.isMultiple) = true := by
  unfold Sect.iteratorList
  by_cases hm : s.isMultiple = true
  · rw [if_neg (by simpa using hm)]
    refine ⟨?_, ?_, ?_⟩
    · rw [List.length_map, segTuples_length]
      rfl
    · apply List.Nodup.map ?_ (segTuples_nodup _)
      intro t1 t2 h
      have hsegs := congrArg Sect.segs h
      simp only at hsegs
      have hinj : Function.Injective fun v : Nat => (⟨v, v⟩ : Seg) := by
        intro a b hab
        exact congrArg Seg.lower hab
      exact List.map_injective_iff.mpr hinj hsegs
    · apply List.all_eq_true.mpr
      intro r hr
      simp only [List.mem_map] at hr
      obtain ⟨t, _, rfl⟩ := hr
      simp [Sect.isMultiple, List.any_map, Function.comp, Seg.isMultiple]
  · rw [if_pos (by simpa using hm)]
    have hall := single_of_not_multiple s (by simpa using hm)
    refine ⟨?_, by simp, ?_⟩
    · show 1 = s.GetCount
      unfold Sect.GetCount
      rw [prod_counts_single s.segs hall]
    · simp only [List.all_cons, List.all_nil, Bool.and_true]
      simp [hm]

/-! ### Single-prefix-block lemmas (C7) -/

/-- A segment contains the single prefix block at full length exactly when
it is single-valued. -/
theorem csb_full_iff (bits : Nat) (g : Seg) :
    g.containsSinglePrefixBlock bits bits = true ↔ g.lower = g.upper := by
  simp [Seg.containsSinglePrefixBlock, Seg.containsPrefixBlock, Nat.sub_self, Nat.mod_one]

/-- A segment containing a single prefix block strictly shorter than its bit
count is multiple. -/
theorem csb_lt_multiple (bits p : Nat) (g : Seg) (hp : p < bits)
    (h : g.containsSinglePrefixBlock bits p = true) : g.lower < g.upper := by
  simp only [Seg.containsSinglePrefixBlock, Seg.containsPrefixBlock, Bool.and_eq_true,
    beq_iff_eq] at h
  obtain ⟨⟨hq, hl⟩, hu⟩ := h
  have hh : 1 ≤ bits - p := by omega
  have h2 : 2 ≤ 2 ^ (bits - p) := by
    calc 2 = 2 ^ 1 := rfl
      _ ≤ 2 ^ (bits - p) := Nat.pow_le_pow_right (by norm_num) hh
  have hld := Nat.div_add_mod g.lower (2 ^ (bits - p))
  have hud := Nat.div_add_mod g.upper (2 ^ (bits - p))
  rw [hq] at hld
  omega

/-- Soundness of the greedy scan: a found prefix length is a single prefix
block length (and is bounded by the total bit count). -/
theorem pfsbGo_sound (bits : Nat) (segs : List Seg) :
    ∀ (t q : Nat), prefixLenForSingleBlockGo bits segs t = some q →
      ∃ q0, q = t + q0 ∧ q0 ≤ bits * segs.length ∧ singlePrefixBlockGo bits segs q0 = true := by
  induction segs with
  | nil =>
    intro t q h
    simp only [prefixLenForSingleBlockGo, Option.some_inj] at h
    exact ⟨0, by omega, by simp, rfl⟩
  | cons g rest ih =>
    intro t q h
    simp only [prefixLenForSingleBlockGo] at h
    split at h
    · exact absurd h (by simp)
    · rename_i dp hf
      have hf2 : (List.range (bits + 1)).find? (fun p => g.containsSinglePrefixBlock bits p)
          = some dp := hf
      have hP : g.containsSinglePrefixBlock bits dp = true := by
        simpa using List.find?_some hf2
      have hdp : dp ≤ bits := by
        have := List.mem_of_find?_eq_some hf2
        simp only [List.mem_range] at this
        omega
      by_cases hlt : dp < bits
      · rw [if_pos hlt] at h
        by_cases hfull : rest.all (Seg.isFullRange bits) = true
        · rw [if_pos hfull] at h
          have hq : q = t + dp := by
            simpa using h.symm
          refine ⟨dp, hq, ?_, ?_⟩
          · simp only [List.length_cons]
            calc dp ≤ bits := hdp
              _ ≤ bits * (rest.length + 1) := Nat.le_mul_of_pos_right _ (by omega)
          · simp only [singlePrefixBlockGo, if_neg (by omega : ¬ bits ≤ dp)]
            rw [hP, hfull]
            rfl
        · rw [if_neg hfull] at h
          exact absurd h (by simp)
      · rw [if_neg hlt] at h
        have hdpe : dp = bits := by omega
        obtain ⟨q1, hq1, hq1b, hq1go⟩ := ih (t + dp) q h
        refine ⟨bits + q1, by omega, ?_, ?_⟩
        · simp only [List.length_cons]
          calc bits + q1 ≤ bits + bits * rest.length := by omega
            _ = bits * (rest.length + 1) := by ring
        · simp only [singlePrefixBlockGo, if_pos (by omega : bits ≤ bits + q1)]
          have hsng : g.lower = g.upper := (csb_full_iff bits g).mp (hdpe ▸ hP)
          rw [if_neg ?_]
          · have : bits + q1 - bits = q1 := by omega
            rw [this]
            exact hq1go
          · simp [Seg.isMultiple, hsng]

/-- Completeness of the greedy scan: when a single prefix block exists at
some length, the scan finds one. -/
theorem pfsbGo_complete (bits : Nat) (segs : List Seg) :
    ∀ (t pc : Nat), singlePrefixBlockGo bits segs pc = true →
      (prefixLenForSingleBlockGo bits segs t).isSome = true := by
  induction segs with
  | nil =>
    intro t pc _
    simp [prefixLenForSingleBlockGo]
  | cons g rest ih =>
    intro t pc h
    simp only [singlePrefixBlockGo] at h
    by_cases hge : bits ≤ pc
    · rw [if_pos hge] at h
      have hm : g.isMultiple = false := by
        by_contra hmm
        simp only [Bool.not_eq_false] at hmm
        rw [if_pos hmm] at h
        exact absurd h (by simp)
      rw [if_neg (by simp [hm])] at h
      have hsng : g.lower = g.upper := by
        simpa [Seg.isMultiple] using hm
      have hx : ∃ p ∈ List.range (bits + 1), g.containsSinglePrefixBlock bits p = true :=
        ⟨bits, by simp, (csb_full_iff bits g).mpr hsng⟩
      cases hf : g.GetPrefixLenForSingleBlock bits with
      | none =>
        unfold Seg.GetPrefixLenForSingleBlock at hf
        rw [List.find?_eq_none] at hf
        obtain ⟨p0, hp0m, hp0⟩ := hx
        exact absurd hp0 (by simpa using hf p0 hp0m)
      | some dp =>
        have hf2 : (List.range (bits + 1)).find? (fun p => g.containsSinglePrefixBlock bits p)
            = some dp := hf
        have hP : g.containsSinglePrefixBlock bits dp = true := by
          simpa using List.find?_some hf2
        simp only [prefixLenForSingleBlockGo, hf]
        by_cases hlt : dp < bits
        · have hsng : g.lower = g.upper := by
            simpa [Seg.isMultiple] using hm
          exact absurd (csb_lt_multiple bits dp g hlt hP) (by omega)
        · rw [if_neg hlt]
          exact ih (t + dp) (pc - bits) h
    · rw [if_neg hge] at h
      obtain ⟨hpcb, hfull⟩ := (Bool.and_eq_true _ _).mp h
      have hx : ∃ p ∈ List.range (bits + 1), g.containsSinglePrefixBlock bits p = true :=
        ⟨pc, by simp; omega, hpcb⟩
      cases hf : g.GetPrefixLenForSingleBlock bits with
      | none =>
        unfold Seg.GetPrefixLenForSingleBlock at hf
        rw [List.find?_eq_none] at hf
        obtain ⟨p0, hp0m, hp0⟩ := hx
        exact absurd hp0 (by simpa using hf p0 hp0m)
      | some dp =>
        have hf2 : (List.range (bits + 1)).find? (fun p => g.containsSinglePrefixBlock bits p)
            = some dp := hf
        have hP : g.containsSinglePrefixBlock bits dp = true := by
          simpa using List.find?_some hf2
        simp only [prefixLenForSingleBlockGo, hf]
        by_cases hlt : dp < bits
        · rw [if_pos hlt, if_pos hfull]
          rfl
        · rw [if_neg hlt]
          have hdpe : dp = bits := by
            have := List.mem_of_find?_eq_some hf2
            simp only [List.mem_range] at this
            omega
          have hsng : g.lower = g.upper := (csb_full_iff bits g).mp (hdpe ▸ hP)
          have hmul : g.lower < g.upper := csb_lt_multiple bits pc g (by omega) hpcb
          omega

/-- A prefix length within the bit count is unchanged by the clamp. -/
theorem checkBitCount_id (q max : Nat) (h : q ≤ max) :
    checkBitCount (q : Int) max = q := by
  unfold checkBitCount
  rw [if_neg (by omega), if_neg (by omega)]
  simp

/-- Claim C7: `GetPrefixLenForSingleBlock` returns `some p` exactly when a
single-prefix-block length exists, the returned length is such a length, and
`AssignPrefixForSingleBlock` is `SetPrefixLen` of it when it exists (else
nil), leaving segment values unchanged. -/
theorem claim7_theorem (s : Sect) :
    ((∃ p : Int, s.ContainsSinglePrefixBlock p = true) ↔
      (s.GetPrefixLenForSingleBlock).isSome = true) ∧
    (∀ q, s.GetPrefixLenForSingleBlock = some q → s.ContainsSinglePrefixBlock (q : Int) = true) ∧
    (s.assignPrefixForSingleBlock = match s.GetPrefixLenForSingleBlock with
      | none => none
      | some q => some (s.setPrefixLen q)) ∧
    (∀ r, s.assignPrefixForSingleBlock = some r → r.segs = s.segs ∧
      s.GetPrefixLenForSingleBlock = some (r.prefixLength.getD 0)) := by
  have hsound : ∀ q, s.GetPrefixLenForSingleBlock = some q →
      s.ContainsSinglePrefixBlock (q : Int) = true := by
    intro q h
    unfold Sect.GetPrefixLenForSingleBlock at h
    obtain ⟨q0, hq0, hq0b, hq0go⟩ := pfsbGo_sound _ _ 0 q h
    unfold Sect.ContainsSinglePrefixBlock
    have hqq : q = q0 := by omega
    subst hqq
    have hle : q ≤ s.GetBitCount := hq0b
    rw [checkBitCount_id q s.GetBitCount hle]
    exact hq0go
  refine ⟨⟨?_, ?_⟩, hsound, rfl, ?_⟩
  · rintro ⟨p, hp⟩
    unfold Sect.ContainsSinglePrefixBlock at hp
    exact pfsbGo_complete _ _ 0 _ hp
  · intro h
    obtain ⟨q, hq⟩ := Option.isSome_iff_exists.mp h
    exact ⟨(q : Int), hsound q hq⟩
  · intro r hr
    unfold Sect.assignPrefixForSingleBlock at hr
    cases hg : s.GetPrefixLenForSingleBlock with
    | none => rw [hg] at hr; exact absurd hr (by simp)
    | some q =>
      rw [hg] at hr
      have : r = s.setPrefixLen q := by
        simpa using hr.symm
      subst this
      exact ⟨rfl, by simpa [Sect.setPrefixLen] using hg⟩

/-- Claim C7, witness at a concrete MAC section `05:10-17` whose single
prefix block length is 13. -/
theorem claim7_witness :
    (Sect.mk [⟨5, 5⟩, ⟨16, 23⟩] none .mac).ContainsSinglePrefixBlock (13 : Int) = true :=
  (claim7_theorem (Sect.mk [⟨5, 5⟩, ⟨16, 23⟩] none .mac)).2.1 13 (by decide)

/-! ### Grouping value lemmas (C9) -/

/-- Membership in a division values list is the interval bound. -/
theorem mem_valuesList_iff (d : Division) (v : Nat) :
    v ∈ d.valuesList ↔ d.lower ≤ v ∧ v ≤ d.upper := by
  simp only [Division.valuesList, List.mem_map, List.mem_range]
  constructor
  · rintro ⟨k, hk, rfl⟩
    omega
  · intro ⟨h1, h2⟩
    exact ⟨v - d.lower, by omega, by omega⟩

/-- Membership in the grouping value list, unfolded one division. -/
theorem mem_divsValueList_cons (d : Division) (rest : List Division) (x : Nat) :
    x ∈ divsValueList (d :: rest) ↔
      ∃ v r, (d.lower ≤ v ∧ v ≤ d.upper) ∧ r ∈ divsValueList rest ∧
        x = v * 2 ^ divsBits rest + r := by
  simp only [divsValueList, List.mem_flatMap, List.mem_map]
  constructor
  · rintro ⟨v, hv, r, hr, rfl⟩
    exact ⟨v, r, (mem_valuesList_iff d v).mp hv, hr, rfl⟩
  · rintro ⟨v, r, hv, hr, rfl⟩
    exact ⟨v, (mem_valuesList_iff d v).mpr hv, r, hr, rfl⟩

/-- Every value of the grouping lies between the lower and the upper
value. -/
theorem divsValueList_bounds (l : List Division) :
    ∀ x ∈ divsValueList l, divsLowerVal l ≤ x ∧ x ≤ divsUpperVal l := by
  induction l with
  | nil =>
    intro x hx
    simp only [divsValueList, List.mem_singleton] at hx
    subst hx
    exact ⟨Nat.le_refl _, Nat.le_refl _⟩
  | cons d rest ih =>
    intro x hx
    obtain ⟨v, r, ⟨hv1, hv2⟩, hr, rfl⟩ := (mem_divsValueList_cons d rest x).mp hx
    obtain ⟨hr1, hr2⟩ := ih r hr
    simp only [divsLowerVal, divsUpperVal]
    constructor
    · exact Nat.add_le_add (Nat.mul_le_mul_right _ hv1) hr1
    · exact Nat.add_le_add (Nat.mul_le_mul_right _ hv2) hr2

/-- The upper value of a well-formed grouping is below `2 ^ divsBits`. -/
theorem divsUpperVal_lt (l : List Division) (hwf : ∀ d ∈ l, d.wf) :
    divsUpperVal l < 2 ^ divsBits l := by
  induction l with
  | nil => simp [divsUpperVal, divsBits]
  | cons d rest ih =>
    obtain ⟨hd1, hd2⟩ := hwf d (List.mem_cons_self _ _)
    have hrest := ih fun x hx => hwf x (List.mem_cons_of_mem _ hx)
    simp only [divsUpperVal, divsBits, List.map_cons, List.sum_cons]
    rw [pow_add]
    have h1 : d.upper * 2 ^ divsBits rest ≤ (2 ^ d.bitCount - 1) * 2 ^ divsBits rest :=
      Nat.mul_le_mul_right _ (by omega)
    have h2 : 0 < 2 ^ d.bitCount := Nat.pos_pow_of_pos _ (by omega)
    have h3 : 0 < 2 ^ divsBits rest := Nat.pos_pow_of_pos _ (by omega)
    calc d.upper * 2 ^ divsBits rest + divsUpperVal rest
        < d.upper * 2 ^ divsBits rest + 2 ^ divsBits rest := by omega
      _ = (d.upper + 1) * 2 ^ divsBits rest := by ring
      _ ≤ 2 ^ d.bitCount * 2 ^ divsBits rest := Nat.mul_le_mul_right _ (by omega)
      _ = 2 ^ d.bitCount * 2 ^ (divsBits rest) := rfl

/-- The lower value never exceeds the upper value (given ordered
divisions). -/
theorem divsLowerVal_le_upperVal (l : List Division) (hord : ∀ d ∈ l, d.lower ≤ d.upper) :
    divsLowerVal l ≤ divsUpperVal l := by
  induction l with
  | nil => exact Nat.le_refl _
  | cons d rest ih =>
    simp only [divsLowerVal, divsUpperVal]
    exact Nat.add_le_add
      (Nat.mul_le_mul_right _ (hord d (List.mem_cons_self _ _)))
      (ih fun x hx => hord x (List.mem_cons_of_mem _ hx))

/-- A grouping of full-range divisions has every value below `2 ^ bits`. -/
theorem divsValueList_full_cover (l : List Division) (hfull : ∀ d ∈ l, d.IsFullRange = true) :
    ∀ r, r < 2 ^ divsBits l → r ∈ divsValueList l := by
  induction l with
  | nil =>
    intro r hr
    simp only [divsBits, List.map_nil, List.sum_nil, pow_zero] at hr
    simp only [divsValueList, List.mem_singleton]
    omega
  | cons d rest ih =>
    intro r hr
    have hd := hfull d (List.mem_cons_self _ _)
    simp only [Division.IsFullRange, Bool.and_eq_true, beq_iff_eq] at hd
    obtain ⟨hd1, hd2⟩ := hd
    have hB : 0 < 2 ^ divsBits rest := Nat.pos_pow_of_pos _ (by omega)
    have hb2 : 0 < 2 ^ d.bitCount := Nat.pos_pow_of_pos _ (by omega)
    have hbits : divsBits (d :: rest) = d.bitCount + divsBits rest := by
      simp [divsBits]
    rw [hbits, pow_add] at hr
    have hhi : r / 2 ^ divsBits rest < 2 ^ d.bitCount := Nat.div_lt_of_lt_mul (by
      rw [Nat.mul_comm] at hr
      exact hr)
    apply (mem_divsValueList_cons d rest r).mpr
    refine ⟨r / 2 ^ divsBits rest, r % 2 ^ divsBits rest,
      ⟨hd1 ▸ Nat.zero_le _, hd2 ▸ Nat.le_sub_one_of_lt hhi⟩,
      ih (fun x hx => hfull x (List.mem_cons_of_mem _ hx)) _ (Nat.mod_lt _ hB), ?_⟩
    exact (Nat.div_add_mod' r _).symm

/-- A grouping of full-range divisions spans from 0 to `2 ^ bits - 1`. -/
theorem divs_full_vals (l : List Division) (hfull : ∀ d ∈ l, d.IsFullRange = true) :
    divsLowerVal l = 0 ∧ divsUpperVal l = 2 ^ divsBits l - 1 := by
  induction l with
  | nil => simp [divsLowerVal, divsUpperVal, divsBits]
  | cons d rest ih =>
    have hd := hfull d (List.mem_cons_self _ _)
    simp only [Division.IsFullRange, Bool.and_eq_true, beq_iff_eq] at hd
    obtain ⟨ih1, ih2⟩ := ih fun x hx => hfull x (List.mem_cons_of_mem _ hx)
    have hbits : divsBits (d :: rest) = d.bitCount + divsBits rest := by
      simp [divsBits]
    have hB : 0 < 2 ^ divsBits rest := Nat.pos_pow_of_pos _ (by omega)
    have hb2 : 0 < 2 ^ d.bitCount := Nat.pos_pow_of_pos _ (by omega)
    constructor
    · simp [divsLowerVal, hd.1, ih1]
    · simp only [divsUpperVal, hd.2, ih2, hbits, pow_add]
      have : (2 ^ d.bitCount - 1) * 2 ^ divsBits rest + (2 ^ divsBits rest - 1)
          = 2 ^ d.bitCount * 2 ^ divsBits rest - 1 := by
        have h4 : 2 ^ divsBits rest ≤ 2 ^ d.bitCount * 2 ^ divsBits rest :=
          Nat.le_mul_of_pos_left _ hb2
        have h5 : (2 ^ d.bitCount - 1) * 2 ^ divsBits rest
            = 2 ^ d.bitCount * 2 ^ divsBits rest - 2 ^ divsBits rest := by
          rw [Nat.sub_mul, Nat.one_mul]
        omega
      rw [this]

/-- Conversely, a well-formed grouping spanning from 0 to `2 ^ bits - 1` is
all full range. -/
theorem divs_full_of_vals (l : List Division) (hwf : ∀ d ∈ l, d.wf)
    (h0 : divsLowerVal l = 0) (h1 : divsUpperVal l = 2 ^ divsBits l - 1) :
    ∀ d ∈ l, d.IsFullRange = true := by
  induction l with
  | nil => intro d hd; exact absurd hd (by simp)
  | cons d rest ih =>
    obtain ⟨hdw1, hdw2⟩ := hwf d (List.mem_cons_self _ _)
    have hrw : ∀ x ∈ rest, x.wf := fun x hx => hwf x (List.mem_cons_of_mem _ hx)
    have hB : 0 < 2 ^ divsBits rest := Nat.pos_pow_of_pos _ (by omega)
    have hb2 : 0 < 2 ^ d.bitCount := Nat.pos_pow_of_pos _ (by omega)
    have hbits : divsBits (d :: rest) = d.bitCount + divsBits rest := by
      simp [divsBits]
    simp only [divsLowerVal, divsUpperVal, hbits, pow_add] at h0 h1
    have hl0 : d.lower = 0 := by
      rcases Nat.eq_zero_of_add_eq_zero_right h0 with h
      rcases Nat.mul_eq_zero.mp h with h2 | h2
      · exact h2
      · omega
    have hLr0 : divsLowerVal rest = 0 := Nat.eq_zero_of_add_eq_zero_left h0
    have hUr : divsUpperVal rest < 2 ^ divsBits rest := divsUpperVal_lt rest hrw
    -- from the sum identity, the head must be maximal and the tail maximal
    have hu : d.upper = 2 ^ d.bitCount - 1 ∧ divsUpperVal rest = 2 ^ divsBits rest - 1 := by
      by_contra hc
      push_neg at hc
      have hlt : d.upper * 2 ^ divsBits rest + divsUpperVal rest
          < 2 ^ d.bitCount * 2 ^ divsBits rest - 1 := by
        rcases Nat.lt_or_ge d.upper (2 ^ d.bitCount - 1) with hu2 | hu2
        · have : (d.upper + 1) * 2 ^ divsBits rest ≤ (2 ^ d.bitCount - 1) * 2 ^ divsBits rest :=
            Nat.mul_le_mul_right _ (by omega)
          have h5 : (2 ^ d.bitCount - 1) * 2 ^ divsBits rest
              = 2 ^ d.bitCount * 2 ^ divsBits rest - 2 ^ divsBits rest := by
            rw [Nat.sub_mul, Nat.one_mul]
          have h6 : d.upper * 2 ^ divsBits rest + 2 ^ divsBits rest
              = (d.upper + 1) * 2 ^ divsBits rest := by ring
          omega
        · have hu3 : d.upper = 2 ^ d.bitCount - 1 := by omega
          have hur3 : divsUpperVal rest < 2 ^ divsBits rest - 1 := by
            have := hc hu3
            omega
          have h5 : (2 ^ d.bitCount - 1) * 2 ^ divsBits rest
              = 2 ^ d.bitCount * 2 ^ divsBits rest - 2 ^ divsBits rest := by
            rw [Nat.sub_mul, Nat.one_mul]
          have h7 : 2 ^ divsBits rest ≤ 2 ^ d.bitCount * 2 ^ divsBits rest :=
            Nat.le_mul_of_pos_left _ hb2
          rw [hu3]
          omega
      omega
    intro x hx
    rcases List.mem_cons.mp hx with rfl | hx2
    · simp [Division.IsFullRange, hl0, hu.1]
    · exact ih hrw hLr0 hu.2 x hx2

/-- `getD` of an in-range index is a member of the list. -/
theorem getD_mem_of_lt (l : List Division) (i : Nat) (x : Division) (h : i < l.length) :
    l.getD i x ∈ l := by
  rw [List.getD_eq_getElem l x h]
  exact List.getElem_mem h

/-- The `count <= 1` early return of `IsSequential` is redundant: the scan
already answers true on lists of at most one division. -/
theorem isSequential_eq_go : ∀ l : List Division, IsSequential l = isSequentialGo l
  | [] => rfl
  | [d] => by cases hd : d.isMultiple <;> simp [IsSequential, isSequentialGo, hd]
  | a :: b :: t => by
    simp only [IsSequential, List.length_cons]
    rw [if_neg (by omega)]

/-- The scan answers true exactly when every division after a multi-valued
division is full range (index form). -/
theorem isSequentialGo_iff_idx (l : List Division) :
    isSequentialGo l = true ↔
      ∀ i j, i < j → j < l.length → (l.getD i ⟨0, 0, 0⟩).isMultiple = true →
        (l.getD j ⟨0, 0, 0⟩).IsFullRange = true := by
  induction l with
  | nil => simp [isSequentialGo]
  | cons d rest ih =>
    simp only [isSequentialGo]
    by_cases hm : d.isMultiple = true
    · rw [if_pos hm]
      constructor
      · intro hall i j hij hj hmul
        have hall2 := List.all_eq_true.mp hall
        obtain ⟨j2, rfl⟩ : ∃ j2, j = j2 + 1 := ⟨j - 1, by omega⟩
        rw [List.getD_cons_succ]
        simp only [List.length_cons] at hj
        exact hall2 _ (getD_mem_of_lt rest j2 _ (by omega))
      · intro hidx
        simp only [Bool.true_eq, List.all_eq_true]
        intro x hx
        obtain ⟨k, hk, hke⟩ := List.mem_iff_getElem.mp hx
        have h2 := hidx 0 (k + 1) (by omega) (by simp only [List.length_cons]; omega)
          (by rw [List.getD_cons_zero]; exact hm)
        rw [List.getD_cons_succ, List.getD_eq_getElem rest _ hk, hke] at h2
        exact h2
    · rw [if_neg hm, ih]
      constructor
      · intro hidx i j hij hj hmul
        cases i with
        | zero => rw [List.getD_cons_zero] at hmul; exact absurd hmul hm
        | succ i2 =>
          cases j with
          | zero => omega
          | succ j2 =>
            rw [List.getD_cons_succ] at hmul
            rw [List.getD_cons_succ]
            simp only [List.length_cons] at hj
            exact hidx i2 j2 (by omega) (by omega) hmul
      · intro hidx i j hij hj hmul
        have h2 := hidx (i + 1) (j + 1) (by omega) (by simp only [List.length_cons]; omega)
          (by rw [List.getD_cons_succ]; exact hmul)
        rw [List.getD_cons_succ] at h2
        exact h2

/-- A sequential scan success means the value list covers the whole
interval from the lower to the upper value. -/
theorem seqGo_cover (l : List Division) (hwf : ∀ d ∈ l, d.wf)
    (hseq : isSequentialGo l = true) :
    ∀ v, divsLowerVal l ≤ v → v ≤ divsUpperVal l → v ∈ divsValueList l := by
  induction l with
  | nil =>
    intro v h1 h2
    simp only [divsLowerVal, divsUpperVal] at h1 h2
    simp only [divsValueList, List.mem_singleton]
    omega
  | cons d rest ih =>
    obtain ⟨hd1, hd2⟩ := hwf d (List.mem_cons_self _ _)
    have hrw : ∀ x ∈ rest, x.wf := fun x hx => hwf x (List.mem_cons_of_mem _ hx)
    have hB : 0 < 2 ^ divsBits rest := Nat.pos_pow_of_pos _ (by omega)
    have hUr : divsUpperVal rest < 2 ^ divsBits rest := divsUpperVal_lt rest hrw
    intro v h1 h2
    simp only [divsLowerVal, divsUpperVal] at h1 h2
    simp only [isSequentialGo] at hseq
    by_cases hm : d.isMultiple = true
    · rw [if_pos hm] at hseq
      have hfull : ∀ x ∈ rest, x.IsFullRange = true := List.all_eq_true.mp hseq
      obtain ⟨hL0, hU1⟩ := divs_full_vals rest hfull
      rw [hL0] at h1
      rw [hU1] at h2
      have hhi1 : d.lower ≤ v / 2 ^ divsBits rest :=
        (Nat.le_div_iff_mul_le hB).mpr (by omega)
      have he : (d.upper + 1) * 2 ^ divsBits rest
          = d.upper * 2 ^ divsBits rest + 2 ^ divsBits rest := by ring
      have hhi2 : v / 2 ^ divsBits rest ≤ d.upper := by
        have h3 : v / 2 ^ divsBits rest < d.upper + 1 :=
          (Nat.div_lt_iff_lt_mul hB).mpr (by omega)
        omega
      exact (mem_divsValueList_cons d rest v).mpr
        ⟨v / 2 ^ divsBits rest, v % 2 ^ divsBits rest, ⟨hhi1, hhi2⟩,
          divsValueList_full_cover rest hfull _ (Nat.mod_lt _ hB),
          (Nat.div_add_mod' v _).symm⟩
    · rw [if_neg hm] at hseq
      have heq : d.lower = d.upper := by
        simpa [Division.isMultiple] using hm
      rw [← heq] at h2
      have hr1 : divsLowerVal rest ≤ v - d.lower * 2 ^ divsBits rest := by omega
      have hr2 : v - d.lower * 2 ^ divsBits rest ≤ divsUpperVal rest := by omega
      exact (mem_divsValueList_cons d rest v).mpr
        ⟨d.lower, v - d.lower * 2 ^ divsBits rest, ⟨Nat.le_refl _, heq ▸ Nat.le_refl _⟩,
          ih hrw hseq _ hr1 hr2, by omega⟩

/-- A sequential scan failure produces a value inside the bounds missing
from the value list. -/
theorem seqGo_gap (l : List Division) (hwf : ∀ d ∈ l, d.wf)
    (hseq : isSequentialGo l = false) :
    ∃ v, divsLowerVal l ≤ v ∧ v ≤ divsUpperVal l ∧ v ∉ divsValueList l := by
  induction l with
  | nil => simp [isSequentialGo] at hseq
  | cons d rest ih =>
    obtain ⟨hd1, hd2⟩ := hwf d (List.mem_cons_self _ _)
    have hrw : ∀ x ∈ rest, x.wf := fun x hx => hwf x (List.mem_cons_of_mem _ hx)
    have hB : 0 < 2 ^ divsBits rest := Nat.pos_pow_of_pos _ (by omega)
    have hUr : divsUpperVal rest < 2 ^ divsBits rest := divsUpperVal_lt rest hrw
    have hLrUr : divsLowerVal rest ≤ divsUpperVal rest :=
      divsLowerVal_le_upperVal rest fun x hx => (hrw x hx).1
    simp only [isSequentialGo] at hseq
    by_cases hm : d.isMultiple = true
    · rw [if_pos hm] at hseq
      have hmul : d.lower < d.upper := by
        have hne : d.lower ≠ d.upper := by simpa [Division.isMultiple] using hm
        omega
      have hnotvals : ¬ (divsLowerVal rest = 0 ∧
          divsUpperVal rest = 2 ^ divsBits rest - 1) := by
        rintro ⟨ha, hb⟩
        have hf := divs_full_of_vals rest hrw ha hb
        rw [List.all_eq_true.mpr hf] at hseq
        exact absurd hseq (by simp)
      have hstep : (d.lower + 1) * 2 ^ divsBits rest ≤ d.upper * 2 ^ divsBits rest :=
        Nat.mul_le_mul_right _ (by omega)
      have he : (d.lower + 1) * 2 ^ divsBits rest
          = d.lower * 2 ^ divsBits rest + 2 ^ divsBits rest := by ring
      rcases Nat.eq_zero_or_pos (divsLowerVal rest) with hLr | hLr
      · have hUrlt : divsUpperVal rest < 2 ^ divsBits rest - 1 := by
          rcases Nat.lt_or_ge (divsUpperVal rest) (2 ^ divsBits rest - 1) with h | h
          · exact h
          · exact absurd ⟨hLr, by omega⟩ hnotvals
        refine ⟨d.lower * 2 ^ divsBits rest + divsUpperVal rest + 1,
          by simp only [divsLowerVal]; omega,
          by simp only [divsUpperVal]; omega, ?_⟩
        intro hmem
        obtain ⟨v2, r, ⟨hv1, hv2⟩, hrmem, heq2⟩ := (mem_divsValueList_cons _ _ _).mp hmem
        obtain ⟨hrb1, hrb2⟩ := divsValueList_bounds rest r hrmem
        have hmod1 : (d.lower * 2 ^ divsBits rest + (divsUpperVal rest + 1))
            % 2 ^ divsBits rest = divsUpperVal rest + 1 :=
          quotMulAddMod _ _ _ (by omega)
        have hmod2 : (v2 * 2 ^ divsBits rest + r) % 2 ^ divsBits rest = r :=
          quotMulAddMod _ _ _ (by omega)
        rw [show d.lower * 2 ^ divsBits rest + (divsUpperVal rest + 1)
          = v2 * 2 ^ divsBits rest + r from by omega] at hmod1
        omega
      · refine ⟨(d.lower + 1) * 2 ^ divsBits rest + (divsLowerVal rest - 1),
          by simp only [divsLowerVal]; omega,
          by simp only [divsUpperVal]; omega, ?_⟩
        intro hmem
        obtain ⟨v2, r, ⟨hv1, hv2⟩, hrmem, heq2⟩ := (mem_divsValueList_cons _ _ _).mp hmem
        obtain ⟨hrb1, hrb2⟩ := divsValueList_bounds rest r hrmem
        have hmod1 : ((d.lower + 1) * 2 ^ divsBits rest + (divsLowerVal rest - 1))
            % 2 ^ divsBits rest = divsLowerVal rest - 1 :=
          quotMulAddMod _ _ _ (by omega)
        have hmod2 : (v2 * 2 ^ divsBits rest + r) % 2 ^ divsBits rest = r :=
          quotMulAddMod _ _ _ (by omega)
        rw [show (d.lower + 1) * 2 ^ divsBits rest + (divsLowerVal rest - 1)
          = v2 * 2 ^ divsBits rest + r from by omega] at hmod1
        omega
    · rw [if_neg hm] at hseq
      have heq : d.lower = d.upper := by
        simpa [Division.isMultiple] using hm
      obtain ⟨r, hr1, hr2, hrnot⟩ := ih hrw hseq
      refine ⟨d.lower * 2 ^ divsBits rest + r,
        by simp only [divsLowerVal]; omega,
        by simp only [divsUpperVal]; rw [← heq]; omega, ?_⟩
      intro hmem
      obtain ⟨v2, r2, ⟨hv1, hv2⟩, hrmem, heq2⟩ := (mem_divsValueList_cons _ _ _).mp hmem
      obtain ⟨hrb1, hrb2⟩ := divsValueList_bounds rest r2 hrmem
      rw [← heq] at hv2
      have hveq : v2 = d.lower := by omega
      subst hveq
      have hreq : r = r2 := by omega
      exact hrnot (hreq ▸ hrmem)

/-- C9: for every well-formed division grouping, IsSequential answers true
iff every division after a multi-valued division is full range, and that
holds exactly when the value set is contiguous: every integer between the
lower and the upper value is a value of the grouping (the converse
inclusion, that every value lies in those bounds, holds unconditionally by
divsValueList_bounds). -/
theorem claim9_theorem (l : List Division) (hwf : ∀ d ∈ l, d.wf) :
    (IsSequential l = true ↔
      ∀ i j, i < j → j < l.length → (l.getD i ⟨0, 0, 0⟩).isMultiple = true →
        (l.getD j ⟨0, 0, 0⟩).IsFullRange = true)
    ∧ (IsSequential l = true ↔
      ∀ v, divsLowerVal l ≤ v → v ≤ divsUpperVal l → v ∈ divsValueList l) := by
  constructor
  · rw [isSequential_eq_go]
    exact isSequentialGo_iff_idx l
  · rw [isSequential_eq_go]
    constructor
    · exact seqGo_cover l hwf
    · intro hcov
      cases hgo : isSequentialGo l with
      | true => rfl
      | false =>
        obtain ⟨v, h1, h2, h3⟩ := seqGo_gap l hwf hgo
        exact absurd (hcov v h1 h2) h3

/-- Witness for C9 at the concrete grouping 1.[0-255] of two 8-bit
divisions. -/
theorem claim9_witness :
    (IsSequential [⟨1, 1, 8⟩, ⟨0, 255, 8⟩] = true ↔
      ∀ i j, i < j → j < 2 →
        (([⟨1, 1, 8⟩, ⟨0, 255, 8⟩] : List Division).getD i ⟨0, 0, 0⟩).isMultiple = true →
        (([⟨1, 1, 8⟩, ⟨0, 255, 8⟩] : List Division).getD j ⟨0, 0, 0⟩).IsFullRange = true)
    ∧ (IsSequential [⟨1, 1, 8⟩, ⟨0, 255, 8⟩] = true ↔
      ∀ v, divsLowerVal [⟨1, 1, 8⟩, ⟨0, 255, 8⟩] ≤ v →
        v ≤ divsUpperVal [⟨1, 1, 8⟩, ⟨0, 255, 8⟩] →
        v ∈ divsValueList [⟨1, 1, 8⟩, ⟨0, 255, 8⟩]) :=
  claim9_theorem [⟨1, 1, 8⟩, ⟨0, 255, 8⟩] (by decide)

/-! ### Increment lemmas (C6) -/

/-- The family maximum table agrees with `2 ^ (8 k) - 1` up to 8
segments. -/
theorem getMacMax_eq (k : Nat) (h : k ≤ 8) :
    getMacMaxValueLong k = 2 ^ (8 * k) - 1 := by
  interval_cases k <;> rfl

/-- Every enumerated tuple has one value per segment. -/
theorem segTuples_mem_length (segs : List Seg) :
    ∀ t ∈ segTuples segs, t.length = segs.length := by
  induction segs with
  | nil =>
    intro t ht
    simp only [segTuples, List.mem_singleton] at ht
    simp [ht]
  | cons g rest ih =>
    intro t ht
    simp only [segTuples, List.mem_flatMap, List.mem_map] at ht
    obtain ⟨v, hv, t2, ht2, rfl⟩ := ht
    simp [ih t2 ht2]

/-- The upper value of a section is below `2 ^ (bits * segment count)`. -/
theorem segsUpperVal_bound (bits : Nat) (segs : List Seg)
    (hub : ∀ g ∈ segs, g.upper < 2 ^ bits) :
    segsUpperVal bits segs < 2 ^ (bits * segs.length) := by
  induction segs with
  | nil => simp [segsUpperVal]
  | cons g rest ih =>
    have hg := hub g (List.mem_cons_self _ _)
    have hrest := ih fun x hx => hub x (List.mem_cons_of_mem _ hx)
    simp only [segsUpperVal, List.length_cons]
    have he : bits * (rest.length + 1) = bits + bits * rest.length := by ring
    rw [he, pow_add]
    have hB : 0 < 2 ^ (bits * rest.length) := Nat.pos_pow_of_pos _ (by omega)
    calc g.upper * 2 ^ (bits * rest.length) + segsUpperVal bits rest
        < g.upper * 2 ^ (bits * rest.length) + 2 ^ (bits * rest.length) := by omega
      _ = (g.upper + 1) * 2 ^ (bits * rest.length) := by ring
      _ ≤ 2 ^ bits * 2 ^ (bits * rest.length) := Nat.mul_le_mul_right _ (by omega)

/-- Every enumerated tuple value lies between the lower and the upper
value of the section. -/
theorem tupleVal_bounds (bits : Nat) (segs : List Seg)
    (hord : ∀ g ∈ segs, g.lower ≤ g.upper) :
    ∀ t ∈ segTuples segs,
      segsLowerVal bits segs ≤ tupleVal bits t ∧
        tupleVal bits t ≤ segsUpperVal bits segs := by
  induction segs with
  | nil =>
    intro t ht
    simp only [segTuples, List.mem_singleton] at ht
    simp [ht, tupleVal, segsLowerVal, segsUpperVal]
  | cons g rest ih =>
    intro t ht
    simp only [segTuples, List.mem_flatMap, List.mem_map] at ht
    obtain ⟨v, hv, t2, ht2, rfl⟩ := ht
    have hvb : g.lower ≤ v ∧ v ≤ g.upper := by
      simp only [Seg.valuesList, List.mem_map, List.mem_range] at hv
      obtain ⟨k, hk, rfl⟩ := hv
      have hg := hord g (List.mem_cons_self _ _)
      omega
    obtain ⟨h1, h2⟩ := ih (fun x hx => hord x (List.mem_cons_of_mem _ hx)) t2 ht2
    have hlt : t2.length = rest.length := segTuples_mem_length rest t2 ht2
    simp only [tupleVal, segsLowerVal, segsUpperVal, hlt]
    exact ⟨Nat.add_le_add (Nat.mul_le_mul_right _ hvb.1) h1,
      Nat.add_le_add (Nat.mul_le_mul_right _ hvb.2) h2⟩

/-- The tuple of all segment lowers evaluates to the section lower
value. -/
theorem tupleVal_map_lower (bits : Nat) (segs : List Seg) :
    tupleVal bits (segs.map Seg.lower) = segsLowerVal bits segs := by
  induction segs with
  | nil => rfl
  | cons g rest ih =>
    simp [tupleVal, segsLowerVal, ih, List.length_map]

/-- A non-multiple section enumerates exactly one tuple: its lowers. -/
theorem segTuples_single (segs : List Seg) (h : ∀ g ∈ segs, g.lower = g.upper) :
    segTuples segs = [segs.map Seg.lower] := by
  induction segs with
  | nil => rfl
  | cons g rest ih =>
    have hg := h g (List.mem_cons_self _ _)
    have hone : g.upper + 1 - g.lower = 1 := by omega
    have hvl : g.valuesList = [g.lower] := by
      rw [Seg.valuesList, hone]
      rw [show List.range 1 = [0] from rfl]
      simp
    rw [segTuples, hvl, ih fun x hx => h x (List.mem_cons_of_mem _ hx)]
    simp

/-- A section with `isMultiple = false` has all segments single-valued. -/
theorem not_multiple_single (s : Sect) (h : s.isMultiple = false) :
    ∀ g ∈ s.segs, g.lower = g.upper := by
  intro g hg
  simp only [Sect.isMultiple, List.any_eq_false] at h
  have h2 := h g hg
  simpa [Seg.isMultiple] using h2

/-- The diagonal single-valued section of a tuple evaluates to the tuple
value. -/
theorem segsLowerVal_diag (bits : Nat) (t : List Nat) :
    segsLowerVal bits (t.map fun v => (⟨v, v⟩ : Seg)) = tupleVal bits t := by
  induction t with
  | nil => rfl
  | cons v rest ih =>
    simp [segsLowerVal, tupleVal, ih, List.length_map]

/-- `valToSegs` produces one segment per requested count. -/
theorem valToSegs_length (bits count v : Nat) :
    (valToSegs bits count v).length = count := by
  induction count generalizing v with
  | zero => rfl
  | succ c ih => simp [valToSegs, ih]

/-- `valToSegs` produces single-valued segments. -/
theorem valToSegs_single (bits count v : Nat) :
    ∀ g ∈ valToSegs bits count v, g.lower = g.upper := by
  induction count generalizing v with
  | zero => intro g hg; simp [valToSegs] at hg
  | succ c ih =>
    intro g hg
    simp only [valToSegs, List.mem_cons] at hg
    rcases hg with rfl | hg
    · rfl
    · exact ih _ g hg

/-- `valToSegs` followed by evaluation is the identity below
`2 ^ (bits * count)`. -/
theorem valToSegs_val (bits count v : Nat) (h : v < 2 ^ (bits * count)) :
    segsLowerVal bits (valToSegs bits count v) = v := by
  induction count generalizing v with
  | zero =>
    simp only [Nat.mul_zero, pow_zero] at h
    simp only [valToSegs, segsLowerVal]
    omega
  | succ c ih =>
    have hB : 0 < 2 ^ (bits * c) := Nat.pos_pow_of_pos _ (by omega)
    simp only [valToSegs, segsLowerVal, valToSegs_length]
    rw [ih _ (Nat.mod_lt _ hB)]
    exact Nat.div_add_mod' v _

/-- The enumeration of a section with ordered segments is nonempty. -/
theorem segTuples_length_pos (segs : List Seg)
    (hord : ∀ g ∈ segs, g.lower ≤ g.upper) :
    0 < (segTuples segs).length := by
  rw [segTuples_length]
  apply List.prod_pos
  intro x hx
  simp only [List.mem_map] at hx
  obtain ⟨g, hg, rfl⟩ := hx
  have h2 := hord g hg
  omega

/-- C6: for every well-formed MAC section of at most 8 segments and every
increment n, Increment returns nil exactly when the value reached by
advancing n positions from the lower end of the row-major enumeration
(continuing past either end by integer arithmetic) underflows below zero
or overflows above the family maximum; otherwise it returns a
single-valued section of the same segment count holding exactly that
value, and inside the enumeration it is the n-th single tuple. -/
theorem claim6_theorem (s : Sect) (hmac : s.addrType = AddrType.mac)
    (hwf : s.wf) (hlen : s.segs.length ≤ 8) (n : Int) :
    (MACIncrement s n = none ↔
      (incrementTargetVal 8 s.segs n < 0 ∨
        ((getMacMaxValueLong s.segs.length : Int) < incrementTargetVal 8 s.segs n)))
    ∧ (∀ r, MACIncrement s n = some r →
        r.segs.length = s.segs.length
        ∧ (∀ g ∈ r.segs, g.lower = g.upper)
        ∧ ((segsLowerVal 8 r.segs : Int) = incrementTargetVal 8 s.segs n)
        ∧ (0 ≤ n → n.toNat < s.GetCount →
            r.segs.map Seg.lower = (segTuples s.segs).getD n.toNat [])) := by
  have hbits : s.addrType.bitsPerSegment = 8 := by rw [hmac]; rfl
  have hord : ∀ g ∈ s.segs, g.lower ≤ g.upper := fun g hg => (hwf g hg).1
  have hub : ∀ g ∈ s.segs, g.upper < 2 ^ 8 := fun g hg => by
    have h2 := (hwf g hg).2
    rwa [hbits] at h2
  have hmax : getMacMaxValueLong s.segs.length = 2 ^ (8 * s.segs.length) - 1 :=
    getMacMax_eq _ hlen
  have hUlt : segsUpperVal 8 s.segs < 2 ^ (8 * s.segs.length) :=
    segsUpperVal_bound 8 s.segs hub
  have hLU : segsLowerVal 8 s.segs ≤ segsUpperVal 8 s.segs :=
    segsLowerVal_le_upperVal 8 s.segs hord
  have hpos : 0 < (segTuples s.segs).length := segTuples_length_pos s.segs hord
  have hcnt : s.GetCount = (segTuples s.segs).length := (segTuples_length s.segs).symm
  by_cases hfast : n = 0 ∧ s.isMultiple = false
  · obtain ⟨hn0, hnm⟩ := hfast
    have hsingle := not_multiple_single s hnm
    have htup : segTuples s.segs = [s.segs.map Seg.lower] := segTuples_single s.segs hsingle
    have hres : MACIncrement s n = some s := by
      unfold MACIncrement
      rw [if_pos ⟨hn0, hnm⟩]
    have htv : incrementTargetVal 8 s.segs n = (segsLowerVal 8 s.segs : Int) := by
      unfold incrementTargetVal
      rw [if_neg (by omega), if_pos (by omega : n.toNat < (segTuples s.segs).length)]
      rw [show n.toNat = 0 from by omega, htup]
      simp [tupleVal_map_lower]
    constructor
    · rw [hres]
      constructor
      · intro h
        exact absurd h (by simp)
      · intro h
        exfalso
        rw [htv, hmax] at h
        rcases h with h | h <;> omega
    · intro r hr
      rw [hres] at hr
      have hrs : r = s := (Option.some_inj.mp hr).symm
      subst hrs
      refine ⟨rfl, hsingle, ?_, ?_⟩
      · rw [htv]
      · intro h1 h2
        rw [show n.toNat = 0 from by omega, htup]
        rfl
  · have hresform : MACIncrement s n
        = if checkOverflow s.addrType.bitsPerSegment s.segs n
            (getMacMaxValueLong s.segs.length) = true
          then none else some (incrementGeneric s n) := by
      unfold MACIncrement
      rw [if_neg hfast]
    by_cases hov : checkOverflow s.addrType.bitsPerSegment s.segs n
        (getMacMaxValueLong s.segs.length) = true
    · have hres : MACIncrement s n = none := by rw [hresform, if_pos hov]
      have hcon : incrementTargetVal 8 s.segs n < 0 ∨
          (getMacMaxValueLong s.segs.length : Int) < incrementTargetVal 8 s.segs n := by
        unfold checkOverflow at hov
        rw [hbits] at hov
        simpa [Bool.or_eq_true, decide_eq_true_iff] using hov
      refine ⟨⟨fun _ => hcon, fun _ => hres⟩, ?_⟩
      intro r hr
      rw [hres] at hr
      exact absurd hr (by simp)
    · have hres : MACIncrement s n = some (incrementGeneric s n) := by
        rw [hresform, if_neg hov]
      have hnn : ¬ (incrementTargetVal 8 s.segs n < 0 ∨
          (getMacMaxValueLong s.segs.length : Int) < incrementTargetVal 8 s.segs n) := by
        intro hcon
        apply hov
        unfold checkOverflow
        rw [hbits]
        rcases hcon with h | h
        · simp [h]
        · simp [h]
      push_neg at hnn
      obtain ⟨hge0, hlemax⟩ := hnn
      constructor
      · rw [hres]
        constructor
        · intro h
          exact absurd h (by simp)
        · intro h
          exfalso
          rcases h with h | h <;> omega
      · intro r hr
        rw [hres] at hr
        have hrg : r = incrementGeneric s n := (Option.some_inj.mp hr).symm
        subst hrg
        by_cases hin : 0 ≤ n ∧ n.toNat < (segTuples s.segs).length
        · have hsegs : (incrementGeneric s n).segs
              = ((segTuples s.segs).getD n.toNat []).map fun v => (⟨v, v⟩ : Seg) := by
            simp only [incrementGeneric]
            rw [if_pos hin]
          have hmem : (segTuples s.segs).getD n.toNat [] ∈ segTuples s.segs := by
            rw [List.getD_eq_getElem _ _ hin.2]
            exact List.getElem_mem hin.2
          rw [hsegs]
          refine ⟨?_, ?_, ?_, ?_⟩
          · rw [List.length_map]
            exact segTuples_mem_length s.segs _ hmem
          · intro g hg
            simp only [List.mem_map] at hg
            obtain ⟨v, hv, rfl⟩ := hg
            rfl
          · rw [segsLowerVal_diag]
            unfold incrementTargetVal
            rw [if_neg (by omega), if_pos hin.2]
          · intro h1 h2
            simp only [List.map_map]
            rw [show (Seg.lower ∘ fun v => (⟨v, v⟩ : Seg)) = id from rfl, List.map_id]
        · have hsegs : (incrementGeneric s n).segs
              = valToSegs 8 s.segs.length (incrementTargetVal 8 s.segs n).toNat := by
            simp only [incrementGeneric, hbits]
            rw [if_neg hin]
          have htN : (incrementTargetVal 8 s.segs n).toNat < 2 ^ (8 * s.segs.length) := by
            rw [hmax] at hlemax
            omega
          rw [hsegs]
          refine ⟨valToSegs_length 8 _ _, valToSegs_single 8 _ _, ?_, ?_⟩
          · rw [valToSegs_val 8 _ _ htN]
            exact Int.toNat_of_nonneg hge0
          · intro h1 h2
            rw [hcnt] at h2
            exact absurd ⟨h1, h2⟩ hin

/-- Witness for C6 at the MAC section of single segment [1,2] and
increment 1. -/
theorem claim6_witness :
    (MACIncrement ⟨[⟨1, 2⟩], none, AddrType.mac⟩ 1 = none ↔
      (incrementTargetVal 8 [⟨1, 2⟩] 1 < 0 ∨
        ((getMacMaxValueLong 1 : Int) < incrementTargetVal 8 [⟨1, 2⟩] 1)))
    ∧ (∀ r, MACIncrement ⟨[⟨1, 2⟩], none, AddrType.mac⟩ 1 = some r →
        r.segs.length = 1
        ∧ (∀ g ∈ r.segs, g.lower = g.upper)
        ∧ ((segsLowerVal 8 r.segs : Int) = incrementTargetVal 8 [⟨1, 2⟩] 1)
        ∧ (0 ≤ (1 : Int) →
            (1 : Int).toNat < Sect.GetCount ⟨[⟨1, 2⟩], none, AddrType.mac⟩ →
            r.segs.map Seg.lower = (segTuples [⟨1, 2⟩]).getD (1 : Int).toNat [])) :=
  claim6_theorem ⟨[⟨1, 2⟩], none, AddrType.mac⟩ rfl (by decide) (by decide) 1

end IPAddrGo
